import Mathlib

/-!
# Verification of the croissant crossword SAT encoder

Shallow embedding of the `croissant` repository (a crossword filler by
reduction to SAT) and proofs about it.  Characters are modelled as their
Unicode code points (`Nat`), strings as lists of code points, SAT literals
as `Int`, models as lists of `Int` indexed by `variable - 1`.

Embedded components:
* `alphabet.rs` — the fixed 26-letter alphabet and `index_of` (a binary
  search over the letter table, as in the source);
* `grid.rs` — grid validation (`Grid::validate` / `Grid::from`) and slot
  enumeration (`Grid::slots`, `across_slots`, `down_slots`);
* `slot.rs` — the `Slot` record and `Slot::positions`;
* `variables.rs` — the variable arithmetic (`representing_cell`,
  `representing_slot`, `count`) and the model decoder `back_to_domain`,
  in both source variants present in the repository;
* `croissant-solver/src/lib.rs` — the default configurator decompositions
  (`add_exactly_one`, `add_at_most_one`, `add_and`);
* the CaDiCaL and LogicNG iterator adapters (`next`,
  `refute_last_solution`, `refute_previous_solution`), with the backend
  SAT engine abstracted as an oracle from clause databases to models.
-/

namespace Croissant

/-! ## Character constants (code points) -/

/-- Code point of the block character `'#'` (`grid::BLOCK`). -/
def BLOCK : Nat := 35

/-- Code point of the empty-cell character `'.'` (`grid::EMPTY`). -/
def EMPTY : Nat := 46

/-- Code point of `'\n'`, the row separator. -/
def NEWLINE : Nat := 10

/-! ## `alphabet.rs` -/

namespace Alphabet

/-- The hardcoded Latin script, `const LETTERS: &[char]`, as code points
`'A'..'Z'`. -/
def LETTERS : List Nat :=
  [65, 66, 67, 68, 69, 70, 71, 72, 73, 74, 75, 76, 77,
   78, 79, 80, 81, 82, 83, 84, 85, 86, 87, 88, 89, 90]

/-- `alphabet::letter_at(index)`: the letter at the given index.  The Rust
source indexes the slice (panicking out of range); out-of-range access is
modelled by the default value 0, which no claim exercises. -/
def letter_at (index : Nat) : Nat := LETTERS.getD index 0

/-- `alphabet::letter_count()` (named `number_of_letters` in the other
source variant): the size of the alphabet. -/
def letter_count : Nat := LETTERS.length

/-- `alphabet::contains(value)`: membership in the letter table. -/
def contains (value : Nat) : Bool := LETTERS.contains value

/-- One step of Rust's `slice::binary_search` loop specialised to the
`LETTERS` table: searching for `c` in the index interval `[left, right)`.
Rust's loop runs `mid = left + size / 2` with `size = right - left`,
descends right on `Less`, left on `Greater`, and returns `Ok(mid)` on
`Equal`; the recursion is paid for with fuel (the interval halves, so any
fuel of at least `right - left + 1` is enough). -/
def binarySearchLoop (c : Nat) : Nat → Nat → Nat → Option Nat
  | 0, _, _ => none
  | fuel + 1, left, right =>
    if left < right then
      if LETTERS.getD (left + (right - left) / 2) 0 < c then
        binarySearchLoop c fuel (left + (right - left) / 2 + 1) right
      else if c < LETTERS.getD (left + (right - left) / 2) 0 then
        binarySearchLoop c fuel left (left + (right - left) / 2)
      else some (left + (right - left) / 2)
    else none

/-- `alphabet::index_of(letter)`:
`LETTERS.binary_search(&letter).map(Some).unwrap_or_default()` —
`Ok(i)` becomes `some i`, `Err(_)` becomes `none`. -/
def index_of (letter : Nat) : Option Nat :=
  binarySearchLoop letter (LETTERS.length + 1) 0 LETTERS.length

end Alphabet

/-! ## `grid.rs` -/

/-- UTF-8 byte length of one code point; Rust's `String::len` counts
bytes, and `Grid::validate` compares row lengths in bytes. -/
def utf8Len (c : Nat) : Nat :=
  if c < 0x80 then 1 else if c < 0x800 then 2 else if c < 0x10000 then 3 else 4

/-- Byte length of a row (Rust `row.len()` on a `String`). -/
def byteLen (row : List Nat) : Nat := (row.map utf8Len).sum

/-- The validation errors of `Grid::validate`, as structured values
mirroring the two `format!` messages of the source. -/
inductive GridError
  /-- `"Inconsistent number of columns: Row #{rowIndex} has {rowLength}
  columns but row #0 has {firstRowLength}"` -/
  | inconsistentColumns (rowIndex rowLength firstRowLength : Nat)
  /-- `"Invalid value at row #{rowIndex}: {value}"` -/
  | invalidValue (rowIndex value : Nat)
deriving DecidableEq

/-- The scan `for value in row.chars()` of `Grid::validate`, returning the
first character that is neither `'.'` nor `'#'` nor a letter. -/
def findInvalidValue (row : List Nat) : Option Nat :=
  row.find? fun value =>
    !(value == EMPTY) && !(value == BLOCK) && !(Alphabet.contains value)

/-- The row loop of `Grid::validate`: each row is first checked for length
against row 0, then scanned for a forbidden character; the first offense
is returned. -/
def validateLoop (firstRowLength : Nat) : List (List Nat) → Nat → Option GridError
  | [], _ => none
  | row :: rest, rowIndex =>
    if byteLen row ≠ firstRowLength then
      some (.inconsistentColumns rowIndex (byteLen row) firstRowLength)
    else
      match findInvalidValue row with
      | some value => some (.invalidValue rowIndex value)
      | none => validateLoop firstRowLength rest (rowIndex + 1)

/-- `Grid::validate(rows)`: the empty row list is trivially valid,
otherwise the rows are scanned in order. -/
def validate (rows : List (List Nat)) : Except GridError (List (List Nat)) :=
  match rows with
  | [] => .ok []
  | row0 :: _ =>
    match validateLoop (byteLen row0) rows 0 with
    | some e => .error e
    | none => .ok rows

/-- A crossword grid (`struct Grid { rows: Vec<String> }`). -/
structure Grid where
  rows : List (List Nat)
deriving DecidableEq

/-- `Grid::new(rows)`. -/
def Grid.new (rows : List (List Nat)) : Except GridError Grid :=
  (validate rows).map Grid.mk

/-- Rust `str::split('\n')`: always at least one piece; an empty input
yields one empty piece, a trailing separator yields a trailing empty
piece. -/
def split (sep : Nat) : List Nat → List (List Nat)
  | [] => [[]]
  | c :: rest =>
    if c = sep then [] :: split sep rest
    else
      match split sep rest with
      | [] => [[c]]
      | piece :: pieces => (c :: piece) :: pieces

/-- `Grid::from(value)`: split on newline, then validate. -/
def Grid.fromString (value : List Nat) : Except GridError Grid :=
  Grid.new (split NEWLINE value)

/-- `Grid::row_count`. -/
def Grid.row_count (g : Grid) : Nat := g.rows.length

/-- `Grid::column_count`: 0 for an empty grid, else the (byte) length of
row 0. -/
def Grid.column_count (g : Grid) : Nat :=
  match g.rows with
  | [] => 0
  | row0 :: _ => byteLen row0

/-- `Grid::letter_at(row, column)` (`chars().nth(column)`); out-of-range
access, which panics in Rust, is modelled by the default 0. -/
def Grid.letter_at (g : Grid) (row column : Nat) : Nat :=
  (g.rows.getD row []).getD column 0

/-! ## `slot.rs` and `pos.rs` -/

/-- `slot::MIN_LEN`: the minimal length of a slot. -/
def MIN_LEN : Nat := 2

/-- A cell position (`struct Pos`); `Pos::new(column, row)`. -/
structure Pos where
  column : Nat
  row : Nat
deriving DecidableEq

/-- A slot (`struct Slot`).  The exclusive end of the varying coordinate
is named `end` in the source, which is reserved in Lean; it is called
`stop` here. -/
structure Slot where
  index : Nat
  start : Nat
  stop : Nat
  offset : Nat
  is_down : Bool
deriving DecidableEq

/-- `Slot::across(index, start_column, end_column, row)`. -/
def Slot.across (index start_column end_column row : Nat) : Slot :=
  ⟨index, start_column, end_column, row, false⟩

/-- `Slot::down(index, start_row, end_row, column)`. -/
def Slot.down (index start_row end_row column : Nat) : Slot :=
  ⟨index, start_row, end_row, column, true⟩

/-- `Slot::len()`. -/
def Slot.len (s : Slot) : Nat := s.stop - s.start

/-- `Slot::positions()`, exactly as in the source: it maps over
`0..self.len()` (not `start..end`), producing `Pos::new(self.offset, i)`
for a down slot and `Pos::new(i, self.offset)` for an across slot. -/
def Slot.positions (s : Slot) : List Pos :=
  (List.range s.len).map fun i =>
    if s.is_down then Pos.mk s.offset i else Pos.mk i s.offset

/-! ## Slot enumeration (`Grid::slots`, `across_slots`, `down_slots`) -/

/-- The run scan shared by `across_slots` (over a row) and `down_slots`
(over a column): walk the line keeping the start of the current run of
non-block cells; on a block, emit the run `(start, position)` if its
length is at least `MIN_LEN` and restart just after the block; at the end
of the line, emit the final run if long enough. -/
def runsLoop : List Nat → Nat → Nat → List (Nat × Nat)
  | [], column, column_start =>
    if MIN_LEN ≤ column - column_start then [(column_start, column)] else []
  | value :: rest, column, column_start =>
    if value = BLOCK then
      (if MIN_LEN ≤ column - column_start then [(column_start, column)] else []) ++
        runsLoop rest (column + 1) (column + 1)
    else runsLoop rest (column + 1) column_start

/-- The maximal runs of a line, scanned from position 0. -/
def runs (line : List Nat) : List (Nat × Nat) := runsLoop line 0 0

/-- The outer loop of `Grid::across_slots`: rows in order, each run of a
row becoming an across slot indexed by the number of slots already
emitted (`slots.len()`, here `base` plus the rank within the row). -/
def acrossSlotsLoop : List (List Nat) → Nat → Nat → List Slot
  | [], _, _ => []
  | row :: rest, rowIndex, base =>
    ((runs row).enum.map fun p => Slot.across (base + p.1) p.2.1 p.2.2 rowIndex) ++
      acrossSlotsLoop rest (rowIndex + 1) (base + (runs row).length)

/-- `Grid::across_slots()`. -/
def Grid.across_slots (g : Grid) : List Slot := acrossSlotsLoop g.rows 0 0

/-- The column of a grid at index `c`, as read by `down_slots` through
`letter_at(row, c)` for `row` in `0..row_count`. -/
def Grid.column (g : Grid) (c : Nat) : List Nat :=
  g.rows.map fun row => row.getD c 0

/-- The outer loop of `Grid::down_slots`: columns in order, each run of a
column becoming a down slot indexed by `start_index + slots.len()`. -/
def downSlotsLoop (g : Grid) : List Nat → Nat → List Slot
  | [], _ => []
  | c :: cs, base =>
    ((runs (g.column c)).enum.map fun p => Slot.down (base + p.1) p.2.1 p.2.2 c) ++
      downSlotsLoop g cs (base + (runs (g.column c)).length)

/-- `Grid::down_slots(start_index)`. -/
def Grid.down_slots (g : Grid) (start_index : Nat) : List Slot :=
  downSlotsLoop g (List.range g.column_count) start_index

/-- `Grid::slots()`: across slots first, then down slots starting at index
`across.len()`. -/
def Grid.slots (g : Grid) : List Slot :=
  g.across_slots ++ g.down_slots g.across_slots.length

/-- `Grid::slot_count()`. -/
def Grid.slot_count (g : Grid) : Nat := g.slots.length

/-! ## `variables.rs` -/

/-- `CELL_VALUE_COUNT = alphabet::letter_count() + 1` — 26 letters plus
the block. -/
def CELL_VALUE_COUNT : Nat := Alphabet.letter_count + 1

/-- `BLOCK_INDEX = alphabet::letter_count()` — the numerical value of a
shaded cell. -/
def BLOCK_INDEX : Nat := Alphabet.letter_count

/-- `struct Variables { grid, word_count }`. -/
structure Variables where
  grid : Grid
  word_count : Nat

/-- `Variables::representing_cell(row, column, value)` (named `cell` in
the `src/src` variant, with the same body). -/
def Variables.representing_cell (v : Variables) (row column value : Nat) : Nat :=
  row * v.grid.column_count * CELL_VALUE_COUNT + column * CELL_VALUE_COUNT + value + 1

/-- `Variables::representing_cell_count()`. -/
def Variables.representing_cell_count (v : Variables) : Nat :=
  v.grid.column_count * v.grid.row_count * CELL_VALUE_COUNT

/-- `Variables::representing_cells()`: `Vec::from_iter(1..(count + 1))`. -/
def Variables.representing_cells (v : Variables) : List Nat :=
  List.range' 1 v.representing_cell_count

/-- `Variables::representing_slot(slot_index, word_index)` (named `slot`
in the `src/src` variant, with the same body). -/
def Variables.representing_slot (v : Variables) (slot_index word_index : Nat) : Nat :=
  v.representing_cell_count + slot_index * v.word_count + word_index + 1

/-- `Variables::representing_slot_count()`. -/
def Variables.representing_slot_count (v : Variables) : Nat :=
  v.grid.slot_count * v.word_count

/-- `Variables::count()`. -/
def Variables.count (v : Variables) : Nat :=
  v.representing_cell_count + v.representing_slot_count

/-- The inner value loop of the crate variant of `back_to_domain`: scan
values `0..27` and stop at the first whose cell variable is positive in
the model (the loop `break`s after the first hit). -/
def findPositiveValue (model : List Int) (v : Variables) (row column : Nat) : Option Nat :=
  (List.range CELL_VALUE_COUNT).find? fun value =>
    decide (0 < model.getD (v.representing_cell row column value - 1) 0)

/-- The character written for a decoded cell value by the crate variant:
`grid::BLOCK` for the block index, else the letter. -/
def cellCharacter (value : Nat) : Nat :=
  if value = BLOCK_INDEX then BLOCK else Alphabet.letter_at value

/-- The column loop of the crate variant of `Variables::back_to_domain`:
for each column of the current row, the decoded character (if any) is
inserted at `row * (column_count + 1) + column`. -/
def columnLoop (v : Variables) (model : List Int) (row : Nat) :
    List Nat → List Nat → List Nat
  | [], output => output
  | column :: rest, output =>
    columnLoop v model row rest
      (match findPositiveValue model v row column with
        | some value =>
          output.insertIdx (row * (v.grid.column_count + 1) + column)
            (cellCharacter value)
        | none => output)

/-- The row loop of the crate variant of `Variables::back_to_domain`:
after each row but the last, a newline is inserted at
`row * (column_count + 1) + column_count`. -/
def rowLoop (v : Variables) (model : List Int) : List Nat → List Nat → List Nat
  | [], output => output
  | row :: rest, output =>
    rowLoop v model rest
      (if row < v.grid.row_count - 1 then
        (columnLoop v model row (List.range v.grid.column_count) output).insertIdx
          (row * (v.grid.column_count + 1) + v.grid.column_count) NEWLINE
      else columnLoop v model row (List.range v.grid.column_count) output)

/-- `Variables::back_to_domain(model)`, crate
(`croissant-crossword/src/variables.rs`) variant. -/
def Variables.back_to_domain (v : Variables) (model : List Int) : List Nat :=
  rowLoop v model (List.range v.grid.row_count) []

/-- The character written for a decoded cell value by the `src/src`
variant: `char::from_u32(BLOCK_INDEX as u32)` — the code point 26, not
`'#'` — for the block index, else the letter. -/
def cellCharacterOld (value : Nat) : Nat :=
  if value = BLOCK_INDEX then BLOCK_INDEX else Alphabet.letter_at value

/-- The inner value loop of the `src/src` variant of `back_to_domain`: no
`break`, so every positive value inserts a character, at position
`row * row_count + column`. -/
def valueLoopOld (v : Variables) (model : List Int) (row column : Nat) :
    List Nat → List Nat → List Nat
  | [], output => output
  | value :: rest, output =>
    valueLoopOld v model row column rest
      (if 0 < model.getD (v.representing_cell row column value - 1) 0 then
        output.insertIdx (row * v.grid.row_count + column) (cellCharacterOld value)
      else output)

/-- The column loop of the `src/src` variant of `back_to_domain`. -/
def columnLoopOld (v : Variables) (model : List Int) (row : Nat) :
    List Nat → List Nat → List Nat
  | [], output => output
  | column :: rest, output =>
    columnLoopOld v model row rest
      (valueLoopOld v model row column (List.range CELL_VALUE_COUNT) output)

/-- The row loop of the `src/src` variant of `back_to_domain`: no newline
is ever inserted. -/
def rowLoopOld (v : Variables) (model : List Int) : List Nat → List Nat → List Nat
  | [], output => output
  | row :: rest, output =>
    rowLoopOld v model rest
      (columnLoopOld v model row (List.range v.grid.column_count) output)

/-- `Variables::back_to_domain(model)`, `src/src/variables.rs` variant. -/
def Variables.back_to_domain_old (v : Variables) (model : List Int) : List Nat :=
  rowLoopOld v model (List.range v.grid.row_count) []

/-! ## `croissant-solver/src/lib.rs` — default configurator decompositions

The configurator is modelled by its observable effect: the list of
clauses pushed through `add_clause`, in emission order. -/

/-- `SolverConfigurator::add_clause`: append one clause. -/
def add_clause (clauses : List (List Int)) (literals : List Int) : List (List Int) :=
  clauses ++ [literals]

/-- The clauses emitted by the default `add_at_most_one` body: nested
loops `for i in 0..n { for j in (i+1)..n { add_clause([-l[i], -l[j]]) } }`. -/
def atMostOnePairs (literals : List Int) : List (List Int) :=
  (List.range literals.length).flatMap fun i =>
    (List.range' (i + 1) (literals.length - (i + 1))).map fun j =>
      [-(literals.getD i 0), -(literals.getD j 0)]

/-- `SolverConfigurator::add_at_most_one` (default implementation). -/
def add_at_most_one (clauses : List (List Int)) (literals : List Int) : List (List Int) :=
  clauses ++ atMostOnePairs literals

/-- `SolverConfigurator::add_exactly_one` (default implementation):
`add_clause(literals)` then `add_at_most_one(literals)`. -/
def add_exactly_one (clauses : List (List Int)) (literals : List Int) : List (List Int) :=
  add_at_most_one (add_clause clauses literals) literals

/-- `SolverConfigurator::add_and` (default implementation): for each
conjunct `c`, emit `[-literal, c]` while accumulating `-c` into the last
clause; finally emit the accumulated negations followed by `literal`. -/
def add_and (clauses : List (List Int)) (literal : Int) (conjunction : List Int) :
    List (List Int) :=
  let r := conjunction.foldl
    (fun (acc : List (List Int) × List Int) c =>
      (add_clause acc.1 [-literal, c], acc.2 ++ [-c]))
    (clauses, ([] : List Int))
  add_clause r.1 (r.2 ++ [literal])

/-! ## Backend adapters

The external SAT engines (CaDiCaL, LogicNG's MiniSat) are abstracted as
an oracle `solve : List (List Int) → Option (List Int)` from the current
clause database to a satisfying assignment (or `none` for UNSAT).  For
CaDiCaL the assignment is indexed by `variable - 1` with sign giving the
polarity (0 = unknown); for LogicNG it is the literal list of the model. -/

/-- `CadicalSolver` (croissant-solver-cadical): the clause database stands
for the clauses added to the underlying `cadical::Solver`. -/
structure CadicalSolver where
  clauses : List (List Int)
  relevant_variables : List Nat
  last_solution : List Int
  no_more_solution : Bool
deriving DecidableEq

/-- `CadicalSolver::refute_last_solution`: if a solution was recorded, add
the clause negating each literal of it — entry `variable` (0-based)
contributes `-signum(value) * (variable + 1)`. -/
def CadicalSolver.refute_last_solution (s : CadicalSolver) : CadicalSolver :=
  if s.last_solution = [] then s
  else
    { s with
      clauses := s.clauses ++
        [s.last_solution.enum.map fun p => -p.2.sign * ((p.1 : Int) + 1)] }

/-- `CadicalSolver::max_relevant_variable`:
`relevant_variables.iter().max().unwrap_or(&0)`. -/
def CadicalSolver.max_relevant_variable (s : CadicalSolver) : Nat :=
  s.relevant_variables.foldr max 0

/-- `CadicalSolver::model`: read variables `1..=max_relevant_variable`
from the engine, mapping true, false, unknown to 1, -1, 0. -/
def CadicalSolver.model (assignment : List Int) (s : CadicalSolver) : List Int :=
  (List.range' 1 s.max_relevant_variable).map fun var =>
    if 0 < assignment.getD (var - 1) 0 then 1
    else if assignment.getD (var - 1) 0 < 0 then -1
    else 0

/-- `<CadicalSolver as Iterator>::next`. -/
def CadicalSolver.next (solve : List (List Int) → Option (List Int))
    (s : CadicalSolver) : Option (List Int) × CadicalSolver :=
  if s.no_more_solution then (none, s)
  else
    match solve s.refute_last_solution.clauses with
    | none => (none, { s.refute_last_solution with no_more_solution := true })
    | some assignment =>
      (some (CadicalSolver.model assignment s.refute_last_solution),
        { s.refute_last_solution with
          last_solution := CadicalSolver.model assignment s.refute_last_solution })

/-- `LogicngSolver` (croissant-solver-logicng): `formulas` stands for the
clause set held by the underlying MiniSat instance. -/
structure LogicngSolver where
  formulas : List (List Int)
  variables_count : Nat
  last_solution_literals : List Int
  no_more_solution : Bool
deriving DecidableEq

/-- `LogicngSolver::refute_previous_solution`: negate every literal of the
previous model — the full model, including variables outside the relevant
set — add that clause, and clear the record. -/
def LogicngSolver.refute_previous_solution (s : LogicngSolver) : LogicngSolver :=
  if s.last_solution_literals = [] then s
  else
    { s with
      formulas := s.formulas ++ [s.last_solution_literals.map fun l => -l],
      last_solution_literals := [] }

/-- `LogicngSolver::variable_states_from(model)`: a zero vector of length
`variables_count`, with 1 at positive literals and -1 at negative ones. -/
def LogicngSolver.variable_states_from (s : LogicngSolver) (modelLits : List Int) :
    List Int :=
  (modelLits.filter fun l => decide (l < 0)).foldl
    (fun acc lit => acc.set (lit.natAbs - 1) (-1))
    ((modelLits.filter fun l => decide (0 < l)).foldl
      (fun acc lit => acc.set (lit.natAbs - 1) 1)
      (List.replicate s.variables_count 0))

/-- `<LogicngSolver as Iterator>::next`. -/
def LogicngSolver.next (solve : List (List Int) → Option (List Int))
    (s : LogicngSolver) : Option (List Int) × LogicngSolver :=
  if s.no_more_solution then (none, s)
  else
    match solve s.refute_previous_solution.formulas with
    | none => (none, { s.refute_previous_solution with no_more_solution := true })
    | some model =>
      (some (s.refute_previous_solution.variable_states_from model),
        { s.refute_previous_solution with last_solution_literals := model })

/-- A literal holds in a model given as a literal list iff it is a member
of the list. -/
def literalSatisfied (modelLits : List Int) (lit : Int) : Bool :=
  modelLits.contains lit

/-- A clause is satisfied iff some literal of it holds. -/
def clauseSatisfied (modelLits : List Int) (clause : List Int) : Bool :=
  clause.any (literalSatisfied modelLits)

/-- All clauses of a database are satisfied. -/
def allClausesSatisfied (modelLits : List Int) (clauses : List (List Int)) : Bool :=
  clauses.all (clauseSatisfied modelLits)

/-- A sound two-variable SAT oracle used to exercise
`LogicngSolver::next`: it proposes the assignment `{1, 2}` and, when that
no longer satisfies the clause database, the assignment `{1, -2}`; it
never returns a model violating a clause. -/
def dupOracle (clauses : List (List Int)) : Option (List Int) :=
  if allClausesSatisfied [1, 2] clauses then some [1, 2]
  else if allClausesSatisfied [1, -2] clauses then some [1, -2]
  else none

/-! ## Specification-side definitions (used to state the claims) -/

/-- The pairwise at-most-one clause family in structural form, following
the spec's words: for all `i < j`, the clause `¬L[i] ∨ ¬L[j]`, enumerated
with `i` outermost.  Compared below with the loop-based `atMostOnePairs`
from the source. -/
def pairwiseNegations : List Int → List (List Int)
  | [] => []
  | x :: xs => (xs.map fun y => [-x, -y]) ++ pairwiseNegations xs

/-- A character allowed in a grid: `'.'`, `'#'`, or a letter. -/
def validValue (ch : Nat) : Prop :=
  ch = EMPTY ∨ ch = BLOCK ∨ ch ∈ Alphabet.LETTERS

instance (ch : Nat) : Decidable (validValue ch) := by
  unfold validValue; infer_instance

/-- A row satisfying both grid invariants relative to the first row's
length: expected byte length, and only allowed characters. -/
def goodRow (firstRowLength : Nat) (row : List Nat) : Prop :=
  byteLen row = firstRowLength ∧ ∀ ch ∈ row, validValue ch

instance (f : Nat) (row : List Nat) : Decidable (goodRow f row) := by
  unfold goodRow; infer_instance

/-- A maximal run of at least `MIN_LEN` non-block cells in a line: the
positions `s` (inclusive) to `e` (exclusive) are non-block, the run is
bounded on the left by the line start or a block and on the right by the
line end or a block. -/
def IsMaxRun (line : List Nat) (s e : Nat) : Prop :=
  MIN_LEN ≤ e - s ∧ e ≤ line.length ∧
  (∀ c, c < e → s ≤ c → line.getD c 0 ≠ BLOCK) ∧
  (s = 0 ∨ line.getD (s - 1) 0 = BLOCK) ∧
  (e = line.length ∨ line.getD e 0 = BLOCK)

instance (line : List Nat) (s e : Nat) : Decidable (IsMaxRun line s e) := by
  unfold IsMaxRun; infer_instance

/-- The geometry of a slot with its index erased: start, end, fixed
offset, axis. -/
def slotData (sl : Slot) : Nat × Nat × Nat × Bool :=
  (sl.start, sl.stop, sl.offset, sl.is_down)

/-! ## Theorems -/

namespace Alphabet

/-- Soundness of the binary-search loop: a returned index is in range and
holds the searched value. -/
theorem binarySearchLoop_sound (c : Nat) :
    ∀ fuel left right i, right ≤ LETTERS.length →
      binarySearchLoop c fuel left right = some i →
      i < LETTERS.length ∧ LETTERS.getD i 0 = c := by
  intro fuel
  induction fuel with
  | zero => intro l r i _ h; simp [binarySearchLoop] at h
  | succ n ih =>
    intro l r i hr h
    rw [binarySearchLoop] at h
    by_cases hlr : l < r
    · simp only [if_pos hlr] at h
      by_cases h1 : LETTERS.getD (l + (r - l) / 2) 0 < c
      · simp only [if_pos h1] at h
        exact ih _ _ _ hr h
      · simp only [if_neg h1] at h
        by_cases h2 : c < LETTERS.getD (l + (r - l) / 2) 0
        · simp only [if_pos h2] at h
          exact ih _ _ _ (by omega) h
        · simp only [if_neg h2] at h
          obtain rfl : l + (r - l) / 2 = i := Option.some.inj h
          exact ⟨by omega, by omega⟩
    · simp only [if_neg hlr] at h
      exact absurd h (by simp)

end Alphabet

/-- Claim C9: for every character `c`, `alphabet::index_of(c)` returns
`some i` exactly when `c` is the `i`-th letter of the fixed ordered
alphabet `'A'..'Z'` (`i` in `0..25`), and returns `none` for every
character not in the alphabet.  (The binary search in the source runs
over `LETTERS`, which is sorted, so it is a correct membership search.) -/
theorem c9_index_of_correct (c : Nat) :
    (∀ i, Alphabet.index_of c = some i ↔ i < 26 ∧ c = Alphabet.LETTERS.getD i 0) ∧
    (c ∉ Alphabet.LETTERS → Alphabet.index_of c = none) := by
  have sound : ∀ i, Alphabet.index_of c = some i →
      i < 26 ∧ Alphabet.LETTERS.getD i 0 = c := fun i h =>
    Alphabet.binarySearchLoop_sound c (Alphabet.LETTERS.length + 1) 0
      Alphabet.LETTERS.length i (le_refl _) h
  constructor
  · intro i
    constructor
    · intro h
      exact ⟨(sound i h).1, (sound i h).2.symm⟩
    · rintro ⟨hi, rfl⟩
      interval_cases i <;> decide
  · intro hc
    cases h : Alphabet.index_of c with
    | none => rfl
    | some i =>
      have hmem : ∀ j, j < 26 → Alphabet.LETTERS.getD j 0 ∈ Alphabet.LETTERS := by
        decide
      exact absurd ((sound i h).2 ▸ hmem i (sound i h).1) hc

/-- Witness for claim C9: instantiation at the letter `'B'` (code 66,
index 1) and at `'@'` (code 64, not in the alphabet). -/
theorem c9_index_of_correct_witness :
    Alphabet.index_of 66 = some 1 ∧ Alphabet.index_of 64 = none := by
  constructor
  · exact ((c9_index_of_correct 66).1 1).mpr (by decide)
  · exact (c9_index_of_correct 64).2 (by decide)

/-! ### Claim C7 — default configurator decompositions -/

/-- Indexing a list through `List.range` of its length is the identity
scan. -/
theorem map_getD_range (xs : List Int) (g : Int → List Int) :
    (List.range xs.length).map (fun k => g (xs.getD k 0)) = xs.map g := by
  induction xs with
  | nil => rfl
  | cons x xs ih =>
    simp only [List.length_cons, List.range_succ_eq_map, List.map_cons, List.map_map,
      Function.comp_def, Nat.succ_eq_add_one, List.getD_cons_zero, List.getD_cons_succ]
    rw [ih]

/-- One unfolding step of the nested index loops of `add_at_most_one`. -/
theorem atMostOnePairs_cons (x : Int) (xs : List Int) :
    atMostOnePairs (x :: xs) = (xs.map fun y => [-x, -y]) ++ atMostOnePairs xs := by
  unfold atMostOnePairs
  simp only [List.length_cons, List.range_succ_eq_map, List.flatMap_cons, List.flatMap_map]
  congr 1
  · simp only [List.getD_cons_zero, Nat.add_sub_cancel, List.range'_eq_map_range,
      List.map_map, Function.comp_def, Nat.zero_add, Nat.one_add, Nat.succ_eq_add_one,
      List.getD_cons_succ]
    exact map_getD_range xs fun y => [-x, -y]
  · apply List.flatMap_congr
    intro i _
    have harith : xs.length + 1 - (Nat.succ i + 1) = xs.length - (i + 1) := by omega
    simp only [Nat.succ_eq_add_one, List.getD_cons_succ, harith,
      List.range'_eq_map_range, List.map_map, Function.comp]
    apply List.map_congr_left
    intro k _
    have h1 : i + 1 + 1 + k = (i + 1 + k) + 1 := by omega
    simp only [Function.comp_def, h1, List.getD_cons_succ]

/-- The loop-based pairwise encoding of the source equals its structural
form. -/
theorem atMostOnePairs_eq_pairwise (lits : List Int) :
    atMostOnePairs lits = pairwiseNegations lits := by
  induction lits with
  | nil => rfl
  | cons x xs ih => rw [atMostOnePairs_cons, pairwiseNegations, ih]

/-- The pairwise family over `n` literals has `n * (n - 1) / 2` clauses,
each binary. -/
theorem pairwiseNegations_length (lits : List Int) :
    2 * (pairwiseNegations lits).length = lits.length * (lits.length - 1) := by
  induction lits with
  | nil => rfl
  | cons x xs ih =>
    have h : (xs.length + 1) * (xs.length + 1 - 1) =
        xs.length * (xs.length - 1) + 2 * xs.length := by
      cases hx : xs.length with
      | zero => rfl
      | succ m => simp only [Nat.add_sub_cancel, Nat.succ_sub_one]; ring
    simp only [pairwiseNegations, List.length_append, List.length_map, List.length_cons]
    rw [h]
    omega

/-- The accumulator run of the `add_and` loop. -/
theorem add_and_foldl (literal : Int) (conjunction : List Int) :
    ∀ (clauses : List (List Int)) (last : List Int),
      conjunction.foldl
        (fun (acc : List (List Int) × List Int) c =>
          (add_clause acc.1 [-literal, c], acc.2 ++ [-c])) (clauses, last) =
      (clauses ++ conjunction.map fun c => [-literal, c],
        last ++ conjunction.map fun c => -c) := by
  induction conjunction with
  | nil => intro clauses last; simp
  | cons c cs ih =>
    intro clauses last
    simp only [List.foldl_cons]
    rw [ih]
    simp [add_clause, List.map_cons]

/-- Claim C7: the default configurator decompositions emit exactly the
specified clauses in the specified order — `add_exactly_one(L)` emits the
single `L`-ary disjunction followed by the pairwise clauses
`¬L[i] ∨ ¬L[j]` for all `i < j` (exactly `|L| * (|L| - 1) / 2` binary
clauses), and `add_and(lit, conjunction)` emits `¬lit ∨ c` for each
conjunct `c` in order, then one final clause listing the negated
conjuncts followed by `lit`. -/
theorem c7_default_decompositions (clauses : List (List Int)) (literals : List Int)
    (lit : Int) (conjunction : List Int) :
    add_exactly_one clauses literals =
      clauses ++ [literals] ++ pairwiseNegations literals ∧
    add_at_most_one clauses literals = clauses ++ pairwiseNegations literals ∧
    (pairwiseNegations literals).length =
      literals.length * (literals.length - 1) / 2 ∧
    (∀ cl ∈ pairwiseNegations literals, cl.length = 2) ∧
    add_and clauses lit conjunction =
      clauses ++ (conjunction.map fun c => [-lit, c]) ++
        [(conjunction.map fun c => -c) ++ [lit]] := by
  refine ⟨?_, ?_, ?_, ?_, ?_⟩
  · simp [add_exactly_one, add_at_most_one, add_clause, atMostOnePairs_eq_pairwise]
  · simp [add_at_most_one, atMostOnePairs_eq_pairwise]
  · have := pairwiseNegations_length literals
    omega
  · intro cl hcl
    induction literals with
    | nil => simp [pairwiseNegations] at hcl
    | cons x xs ih =>
      rw [pairwiseNegations, List.mem_append] at hcl
      rcases hcl with h | h
      · obtain ⟨y, _, rfl⟩ := List.mem_map.mp h
        rfl
      · exact ih h
  · simp only [add_and]
    rw [add_and_foldl]
    simp [add_clause, List.append_assoc]

/-! ### Claim C4 — variable arithmetic -/

/-- Claim C4: for a grid of `R` rows and `C` columns and a word list of
size `W`, the cell variable for `(r, c, v)` is `r·C·27 + c·27 + v + 1`,
the slot variable for `(s, w)` is `R·C·27 + s·W + w + 1`, the total
variable count is `R·C·27 + |slots|·W`, and the two identifier ranges are
dense (every identifier in each range is attained) and non-overlapping
(cell identifiers are `1..R·C·27` and slot identifiers start right
after). -/
theorem c4_variable_arithmetic (v : Variables)
    (row column value slot_index word_index : Nat)
    (hrow : row < v.grid.row_count) (hcol : column < v.grid.column_count)
    (hval : value < 27) (hslot : slot_index < v.grid.slot_count)
    (hword : word_index < v.word_count) :
    v.representing_cell row column value =
      row * v.grid.column_count * 27 + column * 27 + value + 1 ∧
    v.representing_slot slot_index word_index =
      v.grid.row_count * v.grid.column_count * 27 +
        slot_index * v.word_count + word_index + 1 ∧
    v.count = v.grid.row_count * v.grid.column_count * 27 +
      v.grid.slot_count * v.word_count ∧
    1 ≤ v.representing_cell row column value ∧
    v.representing_cell row column value ≤
      v.grid.row_count * v.grid.column_count * 27 ∧
    v.grid.row_count * v.grid.column_count * 27 <
      v.representing_slot slot_index word_index ∧
    v.representing_slot slot_index word_index ≤ v.count ∧
    (∀ id, 1 ≤ id → id ≤ v.grid.row_count * v.grid.column_count * 27 →
      ∃ r c val, r < v.grid.row_count ∧ c < v.grid.column_count ∧ val < 27 ∧
        v.representing_cell r c val = id) ∧
    (∀ id, v.grid.row_count * v.grid.column_count * 27 < id → id ≤ v.count →
      ∃ s w, s < v.grid.slot_count ∧ w < v.word_count ∧
        v.representing_slot s w = id) := by
  have hCELL : CELL_VALUE_COUNT = 27 := rfl
  have hcellcnt : v.representing_cell_count =
      v.grid.row_count * v.grid.column_count * 27 := by
    unfold Variables.representing_cell_count
    rw [hCELL]; ring
  have hcount : v.count = v.grid.row_count * v.grid.column_count * 27 +
      v.grid.slot_count * v.word_count := by
    unfold Variables.count Variables.representing_slot_count
    rw [hcellcnt]
  refine ⟨?_, ?_, hcount, ?_, ?_, ?_, ?_, ?_, ?_⟩
  · unfold Variables.representing_cell; rw [hCELL]
  · unfold Variables.representing_slot; rw [hcellcnt]
  · exact Nat.le_add_left 1 _
  · unfold Variables.representing_cell
    rw [hCELL]
    have h2 : column * 27 + value + 1 ≤ v.grid.column_count * 27 :=
      calc column * 27 + value + 1 ≤ column * 27 + 27 := by omega
        _ = (column + 1) * 27 := by ring
        _ ≤ v.grid.column_count * 27 := mul_le_mul_right' hcol _
    calc row * v.grid.column_count * 27 + column * 27 + value + 1
        = row * (v.grid.column_count * 27) + (column * 27 + value + 1) := by ring
      _ ≤ row * (v.grid.column_count * 27) + v.grid.column_count * 27 :=
        Nat.add_le_add_left h2 _
      _ = (row + 1) * (v.grid.column_count * 27) := by ring
      _ ≤ v.grid.row_count * (v.grid.column_count * 27) := mul_le_mul_right' hrow _
      _ = v.grid.row_count * v.grid.column_count * 27 := by ring
  · unfold Variables.representing_slot
    rw [hcellcnt]
    omega
  · unfold Variables.representing_slot
    rw [hcellcnt, hcount]
    have h3 : slot_index * v.word_count + word_index + 1 ≤
        v.grid.slot_count * v.word_count :=
      calc slot_index * v.word_count + word_index + 1
          ≤ slot_index * v.word_count + v.word_count := by omega
        _ = (slot_index + 1) * v.word_count := by ring
        _ ≤ v.grid.slot_count * v.word_count := mul_le_mul_right' hslot _
    omega
  · intro id hge hle
    rcases Nat.eq_zero_or_pos v.grid.column_count with hC0 | hCpos
    · exfalso
      rw [hC0, Nat.mul_zero, Nat.zero_mul] at hle
      omega
    have hA : 0 < v.grid.column_count * 27 := by positivity
    have h27 : v.grid.row_count * v.grid.column_count * 27 =
        v.grid.row_count * (v.grid.column_count * 27) := by ring
    have hklt : id - 1 < v.grid.row_count * (v.grid.column_count * 27) := by
      rw [← h27]; omega
    refine ⟨(id - 1) / (v.grid.column_count * 27),
      ((id - 1) % (v.grid.column_count * 27)) / 27, (id - 1) % 27,
      (Nat.div_lt_iff_lt_mul hA).mpr hklt,
      (Nat.div_lt_iff_lt_mul (by norm_num)).mpr (Nat.mod_lt _ hA),
      Nat.mod_lt _ (by norm_num), ?_⟩
    unfold Variables.representing_cell
    rw [hCELL]
    have e1 : v.grid.column_count * 27 * ((id - 1) / (v.grid.column_count * 27)) +
        (id - 1) % (v.grid.column_count * 27) = id - 1 := Nat.div_add_mod _ _
    have e2 : 27 * ((id - 1) % (v.grid.column_count * 27) / 27) +
        (id - 1) % (v.grid.column_count * 27) % 27 =
        (id - 1) % (v.grid.column_count * 27) := Nat.div_add_mod _ _
    have e3 : (id - 1) % (v.grid.column_count * 27) % 27 = (id - 1) % 27 :=
      Nat.mod_mod_of_dvd _ ⟨v.grid.column_count, by ring⟩
    have e2' : 27 * ((id - 1) % (v.grid.column_count * 27) / 27) + (id - 1) % 27 =
        (id - 1) % (v.grid.column_count * 27) := by rw [← e3]; exact e2
    calc (id - 1) / (v.grid.column_count * 27) * v.grid.column_count * 27 +
          (id - 1) % (v.grid.column_count * 27) / 27 * 27 + (id - 1) % 27 + 1
        = v.grid.column_count * 27 * ((id - 1) / (v.grid.column_count * 27)) +
          (27 * ((id - 1) % (v.grid.column_count * 27) / 27) + (id - 1) % 27) + 1 := by
          ring
      _ = v.grid.column_count * 27 * ((id - 1) / (v.grid.column_count * 27)) +
          (id - 1) % (v.grid.column_count * 27) + 1 := by rw [e2']
      _ = (id - 1) + 1 := by rw [e1]
      _ = id := by omega
  · intro id hgt hle
    rw [hcount] at hle
    rcases Nat.eq_zero_or_pos v.word_count with hW0 | hWpos
    · exfalso
      rw [hW0, Nat.mul_zero] at hle
      omega
    have hklt : id - v.grid.row_count * v.grid.column_count * 27 - 1 <
        v.grid.slot_count * v.word_count := by omega
    refine ⟨(id - v.grid.row_count * v.grid.column_count * 27 - 1) / v.word_count,
      (id - v.grid.row_count * v.grid.column_count * 27 - 1) % v.word_count,
      (Nat.div_lt_iff_lt_mul hWpos).mpr hklt,
      Nat.mod_lt _ hWpos, ?_⟩
    unfold Variables.representing_slot
    rw [hcellcnt]
    have e1 : v.word_count *
          ((id - v.grid.row_count * v.grid.column_count * 27 - 1) / v.word_count) +
          (id - v.grid.row_count * v.grid.column_count * 27 - 1) % v.word_count =
        id - v.grid.row_count * v.grid.column_count * 27 - 1 := Nat.div_add_mod _ _
    have e4 : (id - v.grid.row_count * v.grid.column_count * 27 - 1) / v.word_count *
          v.word_count =
        v.word_count *
          ((id - v.grid.row_count * v.grid.column_count * 27 - 1) / v.word_count) := by
      ring
    rw [e4]
    omega

/-- Witness for claim C4: a 2×2 blank grid with 3 words; the slot variable
for slot 3 and word 2 is `2·2·27 + 3·3 + 2 + 1 = 120`. -/
theorem c4_variable_arithmetic_witness :
    (Variables.mk (Grid.mk [[46, 46], [46, 46]]) 3).representing_slot 3 2 = 120 := by
  have h := c4_variable_arithmetic (Variables.mk (Grid.mk [[46, 46], [46, 46]]) 3)
    1 1 26 3 2 (by decide) (by decide) (by decide) (by decide) (by decide)
  exact h.2.1.trans (by decide)

/-! ### Claim C3 — slot positions (refuted: the source maps `0..len`) -/

/-- Claim C3 is violated by the source: `Slot::positions` maps over
`0..len` instead of `start..end`.  For the across slot `[1, 3)` in row 0
the produced varying coordinates are 0 and 1, not 1 and 2 as the claim
requires; a down slot `[2, 4)` in column 5 likewise yields rows 0 and 1
instead of 2 and 3.  (The counts and fixed coordinates do match.) -/
theorem c3_positions_ignore_start :
    (Slot.across 42 1 3 0).positions = [Pos.mk 0 0, Pos.mk 1 0] ∧
    (Slot.across 42 1 3 0).positions ≠ [Pos.mk 1 0, Pos.mk 2 0] ∧
    (Slot.down 7 2 4 5).positions = [Pos.mk 5 0, Pos.mk 5 1] ∧
    (Slot.down 7 2 4 5).positions ≠ [Pos.mk 5 2, Pos.mk 5 3] := by
  decide

/-! ### Claim C1 — model decoding (refuted by the `src/src` variant) -/

/-- Claim C1 is violated by the `src/src` decoder: on the 1×1 block grid
`"#"` with the model that assigns the block value, it emits the code
point 26 (`char::from_u32(BLOCK_INDEX)`), not `'#'` (35); and on a 2×2
blank grid decoded to all `'A'`, it emits no newline between rows
(positions are computed with `row * row_count`), so the output is
`"AAAA"` instead of `"AA\nAA"`.  The crate variant produces the shape the
claim states on both inputs. -/
theorem c1_old_decoder_diverges :
    (Variables.mk (Grid.mk [[35]]) 1).back_to_domain_old
        (List.replicate 26 (-1) ++ [1]) = [26] ∧
    (Variables.mk (Grid.mk [[35]]) 1).back_to_domain
        (List.replicate 26 (-1) ++ [1]) = [35] ∧
    (26 : Nat) ≠ BLOCK ∧
    (Variables.mk (Grid.mk [[46, 46], [46, 46]]) 1).back_to_domain_old
        ((List.range 4).flatMap fun _ => (1 : Int) :: List.replicate 26 (-1)) =
      [65, 65, 65, 65] ∧
    (Variables.mk (Grid.mk [[46, 46], [46, 46]]) 1).back_to_domain
        ((List.range 4).flatMap fun _ => (1 : Int) :: List.replicate 26 (-1)) =
      [65, 65, 10, 65, 65] := by
  decide

/-! ### Claim C8 — exhaustion of the solution iterator -/

/-- Claim C8: once the backend reports UNSAT, `next` sets the exhausted
flag (`no_more_solution`) and returns `none`; on an already-exhausted
iterator, `next` returns `none` with the state unchanged and with the
same result for every oracle — i.e. without invoking the solver — for
both the CaDiCaL and the LogicNG adapters. -/
theorem c8_unsat_exhausts (solve : List (List Int) → Option (List Int))
    (cs : CadicalSolver) (ls : LogicngSolver) :
    (cs.no_more_solution = true → CadicalSolver.next solve cs = (none, cs)) ∧
    (cs.no_more_solution = false →
      solve cs.refute_last_solution.clauses = none →
      CadicalSolver.next solve cs =
        (none, { cs.refute_last_solution with no_more_solution := true })) ∧
    (ls.no_more_solution = true → LogicngSolver.next solve ls = (none, ls)) ∧
    (ls.no_more_solution = false →
      solve ls.refute_previous_solution.formulas = none →
      LogicngSolver.next solve ls =
        (none, { ls.refute_previous_solution with no_more_solution := true })) := by
  refine ⟨?_, ?_, ?_, ?_⟩
  · intro h; simp [CadicalSolver.next, h]
  · intro h1 h2; simp [CadicalSolver.next, h1, h2]
  · intro h; simp [LogicngSolver.next, h]
  · intro h1 h2; simp [LogicngSolver.next, h1, h2]

/-- Witness for claim C8: a concrete exhausted CaDiCaL state is left
untouched, and concrete UNSAT databases flip the flag in both
adapters. -/
theorem c8_unsat_exhausts_witness :
    CadicalSolver.next (fun _ => none) ⟨[], [], [], true⟩ = (none, ⟨[], [], [], true⟩) ∧
    CadicalSolver.next (fun _ => none) ⟨[[1], [-1]], [], [], false⟩ =
      (none, ⟨[[1], [-1]], [], [], true⟩) ∧
    LogicngSolver.next (fun _ => none) ⟨[[1], [-1]], 1, [], false⟩ =
      (none, ⟨[[1], [-1]], 1, [], true⟩) := by
  refine ⟨(c8_unsat_exhausts (fun _ => none) ⟨[], [], [], true⟩ ⟨[], 0, [], true⟩).1 rfl,
    ?_, ?_⟩
  · exact ((c8_unsat_exhausts (fun _ => none) ⟨[[1], [-1]], [], [], false⟩
      ⟨[], 0, [], true⟩).2.1 rfl rfl).trans (by decide)
  · exact ((c8_unsat_exhausts (fun _ => none) ⟨[], [], [], true⟩
      ⟨[[1], [-1]], 1, [], false⟩).2.2.2 rfl rfl).trans (by decide)

/-! ### Claim C2 — refutation scope (refuted by the LogicNG adapter) -/

/-- Claim C2 is violated by the LogicNG adapter:
`refute_previous_solution` negates the full previous model, not its
restriction to the relevant (cell) variables — the adapter does not even
store the relevant set (`set_relevant_variables` keeps its no-op
default).  With relevant variable 1 and free variable 2, the sound oracle
`dupOracle` (shown satisfying every clause it answers to) drives two
successive `next` calls to models `[1, 1]` and `[1, -1]`, which agree on
the relevant variable 1, so the decoded grids would coincide; the
refutation clause actually emitted is the full `[-1, -2]`. -/
theorem c2_full_model_refutation_duplicates :
    LogicngSolver.next dupOracle ⟨[[1]], 2, [], false⟩ =
      (some [1, 1], ⟨[[1]], 2, [1, 2], false⟩) ∧
    LogicngSolver.next dupOracle ⟨[[1]], 2, [1, 2], false⟩ =
      (some [1, -1], ⟨[[1], [-1, -2]], 2, [1, -2], false⟩) ∧
    allClausesSatisfied [1, 2] [[1]] = true ∧
    allClausesSatisfied [1, -2] [[1], [-1, -2]] = true ∧
    (LogicngSolver.refute_previous_solution ⟨[[1]], 2, [1, 2], false⟩).formulas =
      [[1], [-1, -2]] ∧
    ([1, 1] : List Int).getD 0 0 = ([1, -1] : List Int).getD 0 0 ∧
    ([1, 1] : List Int) ≠ [1, -1] := by
  decide

/-! ### Claim C10 — the decoder depends only on the cell-variable range -/

/-- `find?` only depends on the predicate's values on the list. -/
theorem find?_ext {α : Type} (l : List α) (p q : α → Bool)
    (h : ∀ x ∈ l, p x = q x) : l.find? p = l.find? q := by
  induction l with
  | nil => rfl
  | cons x xs ih =>
    rw [List.find?_cons, List.find?_cons, h x (List.mem_cons_self x xs)]
    cases q x
    · exact ih fun y hy => h y (List.mem_cons_of_mem x hy)
    · rfl

/-- A cell variable of an in-range cell, shifted to its 0-based model
index, lies below the cell-variable count. -/
theorem representing_cell_lt_cell_count (v : Variables) {row column value : Nat}
    (hrow : row < v.grid.row_count) (hcol : column < v.grid.column_count)
    (hval : value < CELL_VALUE_COUNT) :
    v.representing_cell row column value - 1 < v.representing_cell_count := by
  have h : v.representing_cell row column value ≤ v.representing_cell_count := by
    unfold Variables.representing_cell Variables.representing_cell_count
    have h2 : column * CELL_VALUE_COUNT + value + 1 ≤
        v.grid.column_count * CELL_VALUE_COUNT :=
      calc column * CELL_VALUE_COUNT + value + 1
          ≤ column * CELL_VALUE_COUNT + CELL_VALUE_COUNT := by omega
        _ = (column + 1) * CELL_VALUE_COUNT := by ring
        _ ≤ v.grid.column_count * CELL_VALUE_COUNT := mul_le_mul_right' hcol _
    calc row * v.grid.column_count * CELL_VALUE_COUNT +
          column * CELL_VALUE_COUNT + value + 1
        = row * (v.grid.column_count * CELL_VALUE_COUNT) +
          (column * CELL_VALUE_COUNT + value + 1) := by ring
      _ ≤ row * (v.grid.column_count * CELL_VALUE_COUNT) +
          v.grid.column_count * CELL_VALUE_COUNT := Nat.add_le_add_left h2 _
      _ = (row + 1) * (v.grid.column_count * CELL_VALUE_COUNT) := by ring
      _ ≤ v.grid.row_count * (v.grid.column_count * CELL_VALUE_COUNT) :=
          mul_le_mul_right' hrow _
      _ = v.grid.column_count * v.grid.row_count * CELL_VALUE_COUNT := by ring
  have hge : 1 ≤ v.representing_cell row column value := Nat.le_add_left 1 _
  omega

/-- The inner value scan of the decoder only reads model entries in the
cell-variable range. -/
theorem findPositiveValue_congr (v : Variables) (m1 m2 : List Int) {row column : Nat}
    (hrow : row < v.grid.row_count) (hcol : column < v.grid.column_count)
    (h : ∀ i, i < v.representing_cell_count → m1.getD i 0 = m2.getD i 0) :
    findPositiveValue m1 v row column = findPositiveValue m2 v row column := by
  unfold findPositiveValue
  apply find?_ext
  intro value hv
  have hval : value < CELL_VALUE_COUNT := List.mem_range.mp hv
  rw [h _ (representing_cell_lt_cell_count v hrow hcol hval)]

/-- The column loop of the decoder is model-extensional on the
cell-variable range. -/
theorem columnLoop_congr (v : Variables) (m1 m2 : List Int) (row : Nat)
    (hrow : row < v.grid.row_count)
    (h : ∀ i, i < v.representing_cell_count → m1.getD i 0 = m2.getD i 0) :
    ∀ (cols : List Nat), (∀ c ∈ cols, c < v.grid.column_count) →
      ∀ output, columnLoop v m1 row cols output = columnLoop v m2 row cols output := by
  intro cols
  induction cols with
  | nil => intro _ _; rfl
  | cons c cs ih =>
    intro hc output
    simp only [columnLoop]
    rw [findPositiveValue_congr v m1 m2 hrow (hc c (List.mem_cons_self c cs)) h]
    exact ih (fun c' hc' => hc c' (List.mem_cons_of_mem c hc')) _

/-- The row loop of the decoder is model-extensional on the cell-variable
range. -/
theorem rowLoop_congr (v : Variables) (m1 m2 : List Int)
    (h : ∀ i, i < v.representing_cell_count → m1.getD i 0 = m2.getD i 0) :
    ∀ (rws : List Nat), (∀ r ∈ rws, r < v.grid.row_count) →
      ∀ output, rowLoop v m1 rws output = rowLoop v m2 rws output := by
  intro rws
  induction rws with
  | nil => intro _ _; rfl
  | cons r rs ih =>
    intro hr output
    simp only [rowLoop]
    rw [columnLoop_congr v m1 m2 r (hr r (List.mem_cons_self r rs)) h _
      (fun c hc => List.mem_range.mp hc)]
    exact ih (fun r' hr' => hr r' (List.mem_cons_of_mem r hr')) _

/-- Claim C10: `back_to_domain` reads only the first `R·C·27` entries of
the model — two models that agree on the cell-variable range decode to
the same grid string, so slot-variable entries never influence the
output. -/
theorem c10_decoder_reads_only_cells (v : Variables) (m1 m2 : List Int)
    (h : ∀ i, i < v.grid.row_count * v.grid.column_count * 27 →
      m1.getD i 0 = m2.getD i 0) :
    v.back_to_domain m1 = v.back_to_domain m2 := by
  have hcnt : v.representing_cell_count =
      v.grid.row_count * v.grid.column_count * 27 := by
    unfold Variables.representing_cell_count
    have hCELL : CELL_VALUE_COUNT = 27 := rfl
    rw [hCELL]; ring
  unfold Variables.back_to_domain
  exact rowLoop_congr v m1 m2 (fun i hi => h i (hcnt ▸ hi)) _
    (fun r hr => List.mem_range.mp hr) []

/-- Witness for claim C10: on the 1×1 blank grid, appending a spurious
entry beyond the 27 cell variables does not change the decoded grid. -/
theorem c10_decoder_reads_only_cells_witness :
    (Variables.mk (Grid.mk [[46]]) 1).back_to_domain
        ((1 : Int) :: List.replicate 26 (-1)) =
      (Variables.mk (Grid.mk [[46]]) 1).back_to_domain
        (((1 : Int) :: List.replicate 26 (-1)) ++ [5]) :=
  c10_decoder_reads_only_cells _ _ _ (by decide)

/-! ### Claim C6 — grid validation -/

/-- `Except.map` on an error. -/
theorem except_map_error {e1 : Type} {a b : Type} (f : a → b) (e : e1) :
    Except.map f (Except.error e : Except e1 a) = Except.error e := rfl

/-- `Except.map` on a success. -/
theorem except_map_ok {e1 : Type} {a b : Type} (f : a → b) (x : a) :
    Except.map f (Except.ok x : Except e1 a) = Except.ok (f x) := rfl

/-- Unfolding of `validate` on a non-empty row list. -/
theorem validate_cons (row0 : List Nat) (rest : List (List Nat)) :
    validate (row0 :: rest) =
      match validateLoop (byteLen row0) (row0 :: rest) 0 with
      | some e => Except.error e
      | none => Except.ok (row0 :: rest) := rfl

/-- `validate` fails when the row loop reports an error. -/
theorem validate_cons_some (row0 : List Nat) (rest : List (List Nat)) (e : GridError)
    (h : validateLoop (byteLen row0) (row0 :: rest) 0 = some e) :
    validate (row0 :: rest) = Except.error e := by
  rw [validate_cons, h]

/-- `validate` succeeds when the row loop reports no error. -/
theorem validate_cons_none (row0 : List Nat) (rest : List (List Nat))
    (h : validateLoop (byteLen row0) (row0 :: rest) 0 = none) :
    validate (row0 :: rest) = Except.ok (row0 :: rest) := by
  rw [validate_cons, h]

/-- Unfolding of the validation loop on a row of mismatched length. -/
theorem validateLoop_cons_bad_len {F : Nat} {row : List Nat}
    (rest : List (List Nat)) (i : Nat) (h : byteLen row ≠ F) :
    validateLoop F (row :: rest) i =
      some (.inconsistentColumns i (byteLen row) F) := by
  rw [validateLoop, if_pos h]

/-- Unfolding of the validation loop on a row with a forbidden
character. -/
theorem validateLoop_cons_bad_char {F : Nat} {row : List Nat} {ch : Nat}
    (rest : List (List Nat)) (i : Nat) (h : byteLen row = F)
    (hf : findInvalidValue row = some ch) :
    validateLoop F (row :: rest) i = some (.invalidValue i ch) := by
  rw [validateLoop, if_neg (fun hc => hc h), hf]

/-- Unfolding of the validation loop on a good row. -/
theorem validateLoop_cons_good {F : Nat} {row : List Nat}
    (rest : List (List Nat)) (i : Nat) (h : byteLen row = F)
    (hf : findInvalidValue row = none) :
    validateLoop F (row :: rest) i = validateLoop F rest (i + 1) := by
  rw [validateLoop, if_neg (fun hc => hc h), hf]

/-- The character test of `Grid::validate` rejects exactly the characters
outside the allowed set. -/
theorem invalidPred_false_iff (ch : Nat) :
    ((!(ch == EMPTY) && !(ch == BLOCK) && !(Alphabet.contains ch)) = false) ↔
      validValue ch := by
  simp [validValue, Alphabet.contains, List.elem_iff, List.contains,
    Decidable.or_iff_not_imp_left]

/-- A successful character scan means every character is allowed. -/
theorem findInvalidValue_none_iff (row : List Nat) :
    findInvalidValue row = none ↔ ∀ ch ∈ row, validValue ch := by
  unfold findInvalidValue
  rw [List.find?_eq_none]
  constructor
  · intro h ch hch
    have hne := h ch hch
    have hb : (!(ch == EMPTY) && !(ch == BLOCK) && !(Alphabet.contains ch)) = false := by
      cases hb2 : (!(ch == EMPTY) && !(ch == BLOCK) && !(Alphabet.contains ch))
      · rfl
      · exact absurd hb2 hne
    exact (invalidPred_false_iff ch).mp hb
  · intro h ch hch
    rw [(invalidPred_false_iff ch).mpr (h ch hch)]
    simp

/-- A `find?` hit is the first hit: the list splits around it with all
earlier elements failing the predicate. -/
theorem find?_some_split {α : Type} (p : α → Bool) :
    ∀ (l : List α) (b : α), l.find? p = some b →
      p b = true ∧ ∃ pre suf, l = pre ++ b :: suf ∧ ∀ x ∈ pre, p x = false := by
  intro l
  induction l with
  | nil => intro b h; simp at h
  | cons x xs ih =>
    intro b h
    rw [List.find?_cons] at h
    cases hx : p x with
    | true =>
      rw [hx] at h
      cases h
      exact ⟨hx, [], xs, rfl, by simp⟩
    | false =>
      rw [hx] at h
      obtain ⟨hb, pre, suf, rfl, hpre⟩ := ih b h
      refine ⟨hb, x :: pre, suf, rfl, ?_⟩
      intro y hy
      rcases List.mem_cons.mp hy with rfl | hy
      · exact hx
      · exact hpre y hy

/-- The forbidden character reported by `findInvalidValue` is the first
one of its row. -/
theorem findInvalidValue_some (row : List Nat) (ch : Nat)
    (h : findInvalidValue row = some ch) :
    ¬validValue ch ∧
      ∃ pre suf, row = pre ++ ch :: suf ∧ ∀ c ∈ pre, validValue c := by
  obtain ⟨hb, pre, suf, hrow, hpre⟩ := find?_some_split _ row ch h
  refine ⟨?_, pre, suf, hrow, fun c hc => (invalidPred_false_iff c).mp (hpre c hc)⟩
  intro hv
  rw [(invalidPred_false_iff ch).mpr hv] at hb
  cases hb

/-- The validation loop succeeds exactly on rows that all satisfy both
invariants. -/
theorem validateLoop_none_iff (F : Nat) :
    ∀ (rest : List (List Nat)) (i : Nat),
      validateLoop F rest i = none ↔ ∀ row ∈ rest, goodRow F row := by
  intro rest
  induction rest with
  | nil => intro i; simp [validateLoop]
  | cons row rest ih =>
    intro i
    rcases eq_or_ne (byteLen row) F with heq | hne
    · cases hfind : findInvalidValue row with
      | some ch =>
        rw [validateLoop_cons_bad_char rest i heq hfind]
        constructor
        · intro h; cases h
        · intro h
          obtain ⟨-, hall⟩ := h row (List.mem_cons_self row rest)
          rw [(findInvalidValue_none_iff row).mpr hall] at hfind
          cases hfind
      | none =>
        rw [validateLoop_cons_good rest i heq hfind, ih (i + 1)]
        constructor
        · intro h row2 hrow2
          rcases List.mem_cons.mp hrow2 with rfl | hrow2
          · exact ⟨heq, (findInvalidValue_none_iff row2).mp hfind⟩
          · exact h row2 hrow2
        · intro h row2 hrow2
          exact h row2 (List.mem_cons_of_mem row hrow2)
    · rw [validateLoop_cons_bad_len rest i hne]
      constructor
      · intro h; cases h
      · intro h
        exact absurd (h row (List.mem_cons_self row rest)).1 hne

/-- The validation loop reports the first offending row: the offending
index is in range, all earlier rows are good, and the error is the length
mismatch when present, else the first forbidden character. -/
theorem validateLoop_some (F : Nat) :
    ∀ (rest : List (List Nat)) (i : Nat) (e : GridError),
      validateLoop F rest i = some e →
      ∃ k, k < rest.length ∧
        (∀ j, j < k → goodRow F (rest.getD j [])) ∧
        ((∃ l, e = .inconsistentColumns (i + k) l F ∧
            l = byteLen (rest.getD k []) ∧ l ≠ F) ∨
         (∃ ch, e = .invalidValue (i + k) ch ∧ byteLen (rest.getD k []) = F ∧
            findInvalidValue (rest.getD k []) = some ch)) := by
  intro rest
  induction rest with
  | nil => intro i e h; simp [validateLoop] at h
  | cons row rest ih =>
    intro i e h
    rcases eq_or_ne (byteLen row) F with heq | hne
    · cases hfind : findInvalidValue row with
      | some ch =>
        rw [validateLoop_cons_bad_char rest i heq hfind] at h
        obtain rfl := Option.some.inj h
        exact ⟨0, by simp, by omega, Or.inr ⟨ch, by simp, by simpa using heq,
          by simpa using hfind⟩⟩
      | none =>
        rw [validateLoop_cons_good rest i heq hfind] at h
        obtain ⟨k, hk, hgood, hcase⟩ := ih (i + 1) e h
        refine ⟨k + 1, by simpa using Nat.succ_lt_succ hk, ?_, ?_⟩
        · intro j hj
          cases j with
          | zero => exact ⟨heq, (findInvalidValue_none_iff row).mp hfind⟩
          | succ j2 =>
            rw [List.getD_cons_succ]
            exact hgood j2 (by omega)
        · have hidx : i + 1 + k = i + (k + 1) := by omega
          rw [List.getD_cons_succ]
          rcases hcase with ⟨l, he, hl, hlne⟩ | ⟨ch, he, hlen, hfind2⟩
          · exact Or.inl ⟨l, by rw [he, hidx], hl, hlne⟩
          · exact Or.inr ⟨ch, by rw [he, hidx], hlen, hfind2⟩
    · rw [validateLoop_cons_bad_len rest i hne] at h
      obtain rfl := Option.some.inj h
      exact ⟨0, by simp, by omega, Or.inl ⟨byteLen row, by simp, by simp, hne⟩⟩

/-- `str::split` never yields an empty piece list. -/
theorem split_ne_nil (sep : Nat) : ∀ (s : List Nat), split sep s ≠ [] := by
  intro s
  cases s with
  | nil => simp [split]
  | cons c rest =>
    simp only [split]
    rcases eq_or_ne c sep with rfl | hne
    · simp
    · rw [if_neg hne]
      cases h : split sep rest with
      | nil => simp
      | cons piece pieces => simp

/-- Claim C6: grid construction succeeds exactly when every row has the
first row's (byte) length and every character is a letter, `'.'` or
`'#'`; a length failure reports the first offending row, its length and
row 0's length; a character failure reports the first offending row and
its first forbidden character, with all earlier rows good; and the empty
grid is valid and yields no slots. -/
theorem c6_grid_validation (value : List Nat) :
    ((∃ g, Grid.fromString value = .ok g) ↔
      ∀ row ∈ split NEWLINE value,
        goodRow (byteLen ((split NEWLINE value).headD [])) row) ∧
    (∀ i l f, Grid.fromString value = .error (.inconsistentColumns i l f) →
      f = byteLen ((split NEWLINE value).headD []) ∧
      i < (split NEWLINE value).length ∧
      l = byteLen ((split NEWLINE value).getD i []) ∧ l ≠ f ∧
      ∀ j, j < i → goodRow f ((split NEWLINE value).getD j [])) ∧
    (∀ i ch, Grid.fromString value = .error (.invalidValue i ch) →
      i < (split NEWLINE value).length ∧
      byteLen ((split NEWLINE value).getD i []) =
        byteLen ((split NEWLINE value).headD []) ∧
      ¬validValue ch ∧
      (∃ pre suf, (split NEWLINE value).getD i [] = pre ++ ch :: suf ∧
        ∀ c ∈ pre, validValue c) ∧
      ∀ j, j < i →
        goodRow (byteLen ((split NEWLINE value).headD []))
          ((split NEWLINE value).getD j [])) ∧
    validate [] = .ok [] ∧ Grid.fromString [] = .ok (Grid.mk [[]]) ∧
    (Grid.mk [[]]).slots = [] ∧ (Grid.mk []).slots = [] := by
  obtain ⟨row0, rest, hsplit⟩ : ∃ r t, split NEWLINE value = r :: t := by
    cases h : split NEWLINE value with
    | nil => exact absurd h (split_ne_nil NEWLINE value)
    | cons r t => exact ⟨r, t, rfl⟩
  have hfrom : Grid.fromString value = (validate (row0 :: rest)).map Grid.mk := by
    rw [Grid.fromString, Grid.new, hsplit]
  refine ⟨?_, ?_, ?_, rfl, rfl, by decide, by decide⟩
  · rw [hfrom, hsplit]
    simp only [List.headD_cons]
    cases hloop : validateLoop (byteLen row0) (row0 :: rest) 0 with
    | some e =>
      rw [validate_cons_some row0 rest e hloop, except_map_error]
      constructor
      · rintro ⟨g, hg⟩; cases hg
      · intro h
        rw [(validateLoop_none_iff (byteLen row0) (row0 :: rest) 0).mpr h] at hloop
        cases hloop
    | none =>
      rw [validate_cons_none row0 rest hloop, except_map_ok]
      exact ⟨fun _ => (validateLoop_none_iff _ _ 0).mp hloop,
        fun _ => ⟨Grid.mk (row0 :: rest), rfl⟩⟩
  · intro i l f herr
    rw [hfrom] at herr
    cases hloop : validateLoop (byteLen row0) (row0 :: rest) 0 with
    | none =>
      rw [validate_cons_none row0 rest hloop, except_map_ok] at herr
      cases herr
    | some e =>
      rw [validate_cons_some row0 rest e hloop, except_map_error] at herr
      obtain rfl : e = .inconsistentColumns i l f := by
        injection herr
      obtain ⟨k, hk, hgood, hcase⟩ := validateLoop_some (byteLen row0) _ 0 _ hloop
      rcases hcase with ⟨l2, he, hl, hlne⟩ | ⟨ch, he, -, -⟩
      · obtain ⟨hik, hll, hff⟩ := GridError.inconsistentColumns.inj he
        subst hll
        subst hff
        obtain rfl : i = k := by omega
        rw [hsplit]
        exact ⟨by simp, hk, by simpa using hl, hlne, fun j hj => by
          simpa using hgood j hj⟩
      · cases he
  · intro i ch herr
    rw [hfrom] at herr
    cases hloop : validateLoop (byteLen row0) (row0 :: rest) 0 with
    | none =>
      rw [validate_cons_none row0 rest hloop, except_map_ok] at herr
      cases herr
    | some e =>
      rw [validate_cons_some row0 rest e hloop, except_map_error] at herr
      obtain rfl : e = .invalidValue i ch := by
        injection herr
      obtain ⟨k, hk, hgood, hcase⟩ := validateLoop_some (byteLen row0) _ 0 _ hloop
      rcases hcase with ⟨l2, he, -, -⟩ | ⟨ch2, he, hlen, hfind⟩
      · cases he
      · obtain ⟨hik, hcc⟩ := GridError.invalidValue.inj he
        subst hcc
        obtain rfl : i = k := by omega
        obtain ⟨hnv, pre, suf, hdecomp, hpre⟩ := findInvalidValue_some _ _ hfind
        rw [hsplit]
        exact ⟨hk, by simpa using hlen, hnv,
          ⟨pre, suf, by simpa using hdecomp, hpre⟩,
          fun j hj => by simpa using hgood j hj⟩

/-- Witness for claim C6: `"A\nB"` parses successfully, and `"AB\nC"`
fails on row 1 with a length mismatch reported against row 0 (length
2). -/
theorem c6_grid_validation_witness :
    (∃ g, Grid.fromString [65, 10, 66] = .ok g) ∧
    1 < (split NEWLINE [65, 66, 10, 67]).length := by
  constructor
  · exact (c6_grid_validation [65, 10, 66]).1.mpr (by decide)
  · exact ((c6_grid_validation [65, 66, 10, 67]).2.1 1 1 2 rfl).2.1

/-! ### Claim C5 — slot enumeration -/

/-- Unfolding of the run scan at the end of the line. -/
theorem runsLoop_nil (col start : Nat) :
    runsLoop [] col start =
      if MIN_LEN ≤ col - start then [(start, col)] else [] := rfl

/-- Unfolding of the run scan at a block. -/
theorem runsLoop_cons_block (rest : List Nat) (col start : Nat) :
    runsLoop (BLOCK :: rest) col start =
      (if MIN_LEN ≤ col - start then [(start, col)] else []) ++
        runsLoop rest (col + 1) (col + 1) := by
  rw [runsLoop, if_pos rfl]

/-- Unfolding of the run scan at a non-block cell. -/
theorem runsLoop_cons_nonblock {ch : Nat} (h : ch ≠ BLOCK) (rest : List Nat)
    (col start : Nat) :
    runsLoop (ch :: rest) col start = runsLoop rest (col + 1) start := by
  rw [runsLoop, if_neg h]

/-- Invariant characterization of the run scan: scanning the suffix of
`line` that starts at `col`, with the current run open since `start`
(everything in `[start, col)` non-block and `start` left-bounded), the
scan finds exactly the maximal runs whose start is at least `start`. -/
theorem runsLoop_mem (line : List Nat) :
    ∀ (rest : List Nat) (col start : Nat),
      line.length = col + rest.length →
      (∀ k, rest.getD k 0 = line.getD (col + k) 0) →
      start ≤ col →
      (∀ c, c < col → start ≤ c → line.getD c 0 ≠ BLOCK) →
      (start = 0 ∨ line.getD (start - 1) 0 = BLOCK) →
      ∀ p : Nat × Nat,
        (p ∈ runsLoop rest col start ↔ IsMaxRun line p.1 p.2 ∧ start ≤ p.1) := by
  intro rest
  induction rest with
  | nil =>
    intro col start hlen hagree hsc h4 h5 p
    rw [runsLoop_nil]
    have hcol : col = line.length := by
      simp only [List.length_nil, Nat.add_zero] at hlen
      omega
    have key : IsMaxRun line p.1 p.2 → start ≤ p.1 → p.1 = start ∧ p.2 = col := by
      rintro ⟨hml, hel, hnb, hleft, hright⟩ hps
      have hml2 : 2 ≤ p.2 - p.1 := hml
      have hs2 : p.1 = start := by
        rcases Nat.lt_or_ge start p.1 with hlt2 | hge2
        · exfalso
          rcases hleft with h | h
          · omega
          · exact h4 (p.1 - 1) (by omega) (by omega) h
        · omega
      have he2 : p.2 = col := by
        rcases Nat.lt_or_ge p.2 col with hlt2 | hge2
        · exfalso
          rcases hright with h | h
          · omega
          · exact h4 p.2 (by omega) (by omega) h
        · omega
      exact ⟨hs2, he2⟩
    by_cases hcond : MIN_LEN ≤ col - start
    · rw [if_pos hcond]
      constructor
      · intro hp
        have hpe : p = (start, col) := by simpa using hp
        subst hpe
        refine ⟨⟨hcond, by omega, fun c hc hsc2 => h4 c hc hsc2, h5, Or.inl hcol⟩,
          le_refl _⟩
      · rintro ⟨hmax, hps⟩
        obtain ⟨hs2, he2⟩ := key hmax hps
        simp [Prod.ext_iff, hs2, he2]
    · rw [if_neg hcond]
      constructor
      · intro hp; simp at hp
      · rintro ⟨hmax, hps⟩
        exfalso
        obtain ⟨hs2, he2⟩ := key hmax hps
        have hml2 : 2 ≤ p.2 - p.1 := hmax.1
        have hcond2 : ¬(2 ≤ col - start) := hcond
        omega
  | cons ch rest ih =>
    intro col start hlen hagree hsc h4 h5 p
    have hch : line.getD col 0 = ch := by
      have h0 := hagree 0
      simpa using h0.symm
    have hlen2 : line.length = (col + 1) + rest.length := by
      simp only [List.length_cons] at hlen
      omega
    have hagree2 : ∀ k, rest.getD k 0 = line.getD (col + 1 + k) 0 := by
      intro k
      have hk := hagree (k + 1)
      have harr : col + (k + 1) = col + 1 + k := by omega
      rw [harr] at hk
      simpa using hk
    by_cases hblock : ch = BLOCK
    · subst hblock
      rw [runsLoop_cons_block, List.mem_append]
      have ihspec := ih (col + 1) (col + 1) hlen2 hagree2 (le_refl _)
        (fun c hc1 hc2 => absurd hc2 (by omega))
        (Or.inr (by simpa using hch)) p
      constructor
      · rintro (hp | hp)
        · by_cases hcond : MIN_LEN ≤ col - start
          · rw [if_pos hcond] at hp
            have hpe : p = (start, col) := by simpa using hp
            subst hpe
            exact ⟨⟨hcond, by omega, fun c hc hsc2 => h4 c hc hsc2, h5,
              Or.inr hch⟩, le_refl _⟩
          · rw [if_neg hcond] at hp
            simp at hp
        · obtain ⟨hmax, hge⟩ := ihspec.mp hp
          exact ⟨hmax, by omega⟩
      · rintro ⟨hmax, hps⟩
        rcases Nat.lt_or_ge p.1 (col + 1) with hlt | hge
        · left
          obtain ⟨hml, hel, hnb, hleft, hright⟩ := hmax
          have hml2 : 2 ≤ p.2 - p.1 := hml
          have hs2 : p.1 = start := by
            rcases Nat.lt_or_ge start p.1 with hlt2 | hge2
            · exfalso
              rcases hleft with h | h
              · omega
              · exact h4 (p.1 - 1) (by omega) (by omega) h
            · omega
          have he2 : p.2 = col := by
            rcases Nat.lt_or_ge col p.2 with hlt2 | hge2
            · exfalso
              exact hnb col hlt2 (by omega) hch
            · rcases Nat.lt_or_ge p.2 col with hlt3 | hge3
              · exfalso
                rcases hright with h | h
                · omega
                · exact h4 p.2 (by omega) (by omega) h
              · omega
          rw [if_pos (show MIN_LEN ≤ col - start by
            have : (2 : Nat) ≤ col - start := by omega
            exact this)]
          simp [Prod.ext_iff, hs2, he2]
        · right
          exact ihspec.mpr ⟨hmax, hge⟩
    · rw [runsLoop_cons_nonblock hblock]
      have h4' : ∀ c, c < col + 1 → start ≤ c → line.getD c 0 ≠ BLOCK := by
        intro c hc1 hc2
        rcases Nat.lt_or_ge c col with h | h
        · exact h4 c h hc2
        · have hceq : c = col := by omega
          rw [hceq, hch]
          exact hblock
      exact ih (col + 1) start hlen2 hagree2 (by omega) h4' h5 p

/-- The run scan of a full line finds exactly its maximal runs. -/
theorem runs_mem (line : List Nat) (p : Nat × Nat) :
    p ∈ runs line ↔ IsMaxRun line p.1 p.2 := by
  have h := runsLoop_mem line line 0 0 (by simp) (fun k => by simp)
    (le_refl 0) (fun c hc1 hc2 => absurd hc1 (by omega)) (Or.inl rfl) p
  unfold runs
  rw [h]
  exact and_iff_left (Nat.zero_le _)

/-- The across loop assigns indices densely from its base. -/
theorem acrossSlotsLoop_map_index :
    ∀ (rws : List (List Nat)) (r base : Nat),
      (acrossSlotsLoop rws r base).map Slot.index =
        List.range' base (acrossSlotsLoop rws r base).length := by
  intro rws
  induction rws with
  | nil => intro r base; rfl
  | cons row rest ih =>
    intro r base
    simp only [acrossSlotsLoop, List.map_append, List.map_map, List.length_append,
      List.length_map, List.enum_length]
    rw [ih]
    have hcomp : (Slot.index ∘ fun p : Nat × (Nat × Nat) =>
        Slot.across (base + p.1) p.2.1 p.2.2 r) =
        ((fun x => base + x) ∘ Prod.fst) := rfl
    rw [hcomp, ← List.map_map, List.enum_map_fst, ← List.range'_eq_map_range]
    have happ := List.range'_append base (runs row).length
      (acrossSlotsLoop rest (r + 1) (base + (runs row).length)).length 1
    simp only [Nat.one_mul] at happ
    rw [Nat.add_comm (runs row).length
      (acrossSlotsLoop rest (r + 1) (base + (runs row).length)).length]
    exact happ

/-- The down loop assigns indices densely from its base. -/
theorem downSlotsLoop_map_index (g : Grid) :
    ∀ (cs : List Nat) (base : Nat),
      (downSlotsLoop g cs base).map Slot.index =
        List.range' base (downSlotsLoop g cs base).length := by
  intro cs
  induction cs with
  | nil => intro base; rfl
  | cons c rest ih =>
    intro base
    simp only [downSlotsLoop, List.map_append, List.map_map, List.length_append,
      List.length_map, List.enum_length]
    rw [ih]
    have hcomp : (Slot.index ∘ fun p : Nat × (Nat × Nat) =>
        Slot.down (base + p.1) p.2.1 p.2.2 c) =
        ((fun x => base + x) ∘ Prod.fst) := rfl
    rw [hcomp, ← List.map_map, List.enum_map_fst, ← List.range'_eq_map_range]
    have happ := List.range'_append base (runs (g.column c)).length
      (downSlotsLoop g rest (base + (runs (g.column c)).length)).length 1
    simp only [Nat.one_mul] at happ
    rw [Nat.add_comm (runs (g.column c)).length
      (downSlotsLoop g rest (base + (runs (g.column c)).length)).length]
    exact happ

/-- The across loop enumerates, row by row and in run order, exactly the
runs of each row (indices erased). -/
theorem acrossSlotsLoop_map_data :
    ∀ (rws : List (List Nat)) (r base : Nat),
      (acrossSlotsLoop rws r base).map slotData =
        (rws.enumFrom r).flatMap fun q =>
          (runs q.2).map fun p => (p.1, p.2, q.1, false) := by
  intro rws
  induction rws with
  | nil => intro r base; rfl
  | cons row rest ih =>
    intro r base
    simp only [acrossSlotsLoop, List.map_append, List.map_map, List.enumFrom_cons,
      List.flatMap_cons]
    congr 1
    · have hcomp : (slotData ∘ fun p : Nat × (Nat × Nat) =>
          Slot.across (base + p.1) p.2.1 p.2.2 r) =
          ((fun q : Nat × Nat => (q.1, q.2, r, false)) ∘ Prod.snd) := rfl
      rw [hcomp, ← List.map_map, List.enum_map_snd]
    · exact ih (r + 1) (base + (runs row).length)

/-- The down loop enumerates, column by column and in run order, exactly
the runs of each column (indices erased). -/
theorem downSlotsLoop_map_data (g : Grid) :
    ∀ (cs : List Nat) (base : Nat),
      (downSlotsLoop g cs base).map slotData =
        cs.flatMap fun c => (runs (g.column c)).map fun p => (p.1, p.2, c, true) := by
  intro cs
  induction cs with
  | nil => intro base; rfl
  | cons c rest ih =>
    intro base
    simp only [downSlotsLoop, List.map_append, List.map_map, List.flatMap_cons]
    congr 1
    · have hcomp : (slotData ∘ fun p : Nat × (Nat × Nat) =>
          Slot.down (base + p.1) p.2.1 p.2.2 c) =
          ((fun q : Nat × Nat => (q.1, q.2, c, true)) ∘ Prod.snd) := rfl
      rw [hcomp, ← List.map_map, List.enum_map_snd]
    · exact ih (base + (runs (g.column c)).length)

/-- Membership in the across enumeration, by row index. -/
theorem enumFrom_runs_mem :
    ∀ (rws : List (List Nat)) (r0 s e r : Nat),
      ((s, e, r, false) ∈ (rws.enumFrom r0).flatMap fun q =>
        (runs q.2).map fun p => (p.1, p.2, q.1, false)) ↔
      ∃ k, k < rws.length ∧ r = r0 + k ∧ (s, e) ∈ runs (rws.getD k []) := by
  intro rws
  induction rws with
  | nil => intro r0 s e r; simp
  | cons row rest ih =>
    intro r0 s e r
    rw [List.enumFrom_cons, List.flatMap_cons, List.mem_append]
    constructor
    · rintro (h | h)
      · obtain ⟨p, hp, hpe⟩ := List.mem_map.mp h
        simp only [Prod.mk.injEq] at hpe
        obtain ⟨hp1, hp2, hr, -⟩ := hpe
        have hmem : (s, e) ∈ runs row := by
          have hpeq : p = (s, e) := Prod.ext hp1 hp2
          rw [← hpeq]; exact hp
        exact ⟨0, by simp, by omega, by simpa using hmem⟩
      · obtain ⟨k, hk, hr, hmem⟩ := (ih (r0 + 1) s e r).mp h
        refine ⟨k + 1, by simp only [List.length_cons]; omega, by omega,
          by simpa using hmem⟩
    · rintro ⟨k, hk, hr, hmem⟩
      cases k with
      | zero =>
        left
        refine List.mem_map.mpr ⟨(s, e), by simpa using hmem, ?_⟩
        have hr0 : r = r0 := by omega
        simp [hr0]
      | succ k2 =>
        right
        refine (ih (r0 + 1) s e r).mpr ⟨k2, ?_, by omega, by simpa using hmem⟩
        simp only [List.length_cons] at hk
        omega

/-- Membership in the down enumeration, by column index. -/
theorem range_runs_mem (g : Grid) (n s e c : Nat) :
    ((s, e, c, true) ∈ (List.range n).flatMap fun c2 =>
      (runs (g.column c2)).map fun p => (p.1, p.2, c2, true)) ↔
    c < n ∧ (s, e) ∈ runs (g.column c) := by
  rw [List.mem_flatMap]
  constructor
  · rintro ⟨c2, hc2, hmem⟩
    obtain ⟨p, hp, hpe⟩ := List.mem_map.mp hmem
    simp only [Prod.mk.injEq] at hpe
    obtain ⟨hp1, hp2, hc, -⟩ := hpe
    have hpeq : p = (s, e) := Prod.ext hp1 hp2
    subst hc
    exact ⟨List.mem_range.mp hc2, hpeq ▸ hp⟩
  · rintro ⟨hc, hmem⟩
    exact ⟨c, List.mem_range.mpr hc, List.mem_map.mpr ⟨(s, e), hmem, rfl⟩⟩

/-- Indexing a replicated list. -/
theorem getD_replicate (x : Nat) :
    ∀ (n c : Nat), (List.replicate n x).getD c 0 = if c < n then x else 0 := by
  intro n
  induction n with
  | zero => intro c; simp
  | succ m ih =>
    intro c
    cases c with
    | zero => simp [List.replicate_succ]
    | succ c2 =>
      rw [List.replicate_succ, List.getD_cons_succ, ih c2]
      simp [Nat.succ_lt_succ_iff]

/-- The run scan of a block-free line finds one full-width run (when long
enough). -/
theorem runsLoop_nonblock :
    ∀ (rest : List Nat) (col start : Nat),
      (∀ ch ∈ rest, ch ≠ BLOCK) →
      runsLoop rest col start =
        if MIN_LEN ≤ col + rest.length - start then [(start, col + rest.length)]
        else [] := by
  intro rest
  induction rest with
  | nil => intro col start h; simp [runsLoop_nil]
  | cons ch rest ih =>
    intro col start h
    rw [runsLoop_cons_nonblock (h ch (List.mem_cons_self ch rest))]
    rw [ih (col + 1) start (fun c hc => h c (List.mem_cons_of_mem ch hc))]
    have harr : col + 1 + rest.length = col + (ch :: rest).length := by
      simp only [List.length_cons]; omega
    rw [harr]

/-- The runs of a block-free line. -/
theorem runs_nonblock (line : List Nat) (h : ∀ ch ∈ line, ch ≠ BLOCK) :
    runs line = if MIN_LEN ≤ line.length then [(0, line.length)] else [] := by
  unfold runs
  rw [runsLoop_nonblock line 0 0 h]
  simp

/-- The run scan of an all-block line finds nothing. -/
theorem runsLoop_allblock :
    ∀ (n col : Nat), runsLoop (List.replicate n BLOCK) col col = [] := by
  intro n
  induction n with
  | zero => intro col; simp [runsLoop_nil, MIN_LEN]
  | succ m ih =>
    intro col
    rw [List.replicate_succ, runsLoop_cons_block, ih (col + 1)]
    simp [MIN_LEN]

/-- The runs of an all-block line. -/
theorem runs_allblock (n : Nat) : runs (List.replicate n BLOCK) = [] := by
  unfold runs
  exact runsLoop_allblock n 0

/-- The across loop over identical rows with a single full run. -/
theorem acrossSlotsLoop_single {row : List Nat} {C : Nat} (h : runs row = [(0, C)]) :
    ∀ (n rowIndex base : Nat),
      acrossSlotsLoop (List.replicate n row) rowIndex base =
        (List.range n).map fun k => Slot.across (base + k) 0 C (rowIndex + k) := by
  intro n
  induction n with
  | zero => intro rowIndex base; rfl
  | succ m ih =>
    intro rowIndex base
    rw [List.replicate_succ]
    have hstep : acrossSlotsLoop (row :: List.replicate m row) rowIndex base =
        ((runs row).enum.map fun p => Slot.across (base + p.1) p.2.1 p.2.2 rowIndex) ++
          acrossSlotsLoop (List.replicate m row) (rowIndex + 1)
            (base + (runs row).length) := rfl
    rw [hstep, h]
    simp only [List.length_cons, List.length_nil, Nat.zero_add]
    rw [ih (rowIndex + 1) (base + 1)]
    have hhead : ([((0 : Nat), ((0 : Nat), C))].map fun p : Nat × (Nat × Nat) =>
        Slot.across (base + p.1) p.2.1 p.2.2 rowIndex) =
        [Slot.across base 0 C rowIndex] := by
      simp [Slot.across]
    rw [show ([((0 : Nat), C)] : List (Nat × Nat)).enum = [(0, (0, C))] from rfl, hhead]
    rw [List.range_succ_eq_map, List.map_cons, List.map_map]
    rw [List.singleton_append]
    refine congrArg₂ List.cons rfl ?_
    apply List.map_congr_left
    intro k _
    simp only [Function.comp_def, Nat.succ_eq_add_one]
    have e1 : base + 1 + k = base + (k + 1) := by omega
    have e2 : rowIndex + 1 + k = rowIndex + (k + 1) := by omega
    rw [e1, e2]

/-- The across loop over identical rows with no runs. -/
theorem acrossSlotsLoop_empty {row : List Nat} (h : runs row = []) :
    ∀ (n rowIndex base : Nat),
      acrossSlotsLoop (List.replicate n row) rowIndex base = [] := by
  intro n
  induction n with
  | zero => intro rowIndex base; rfl
  | succ m ih =>
    intro rowIndex base
    rw [List.replicate_succ]
    have hstep : acrossSlotsLoop (row :: List.replicate m row) rowIndex base =
        ((runs row).enum.map fun p => Slot.across (base + p.1) p.2.1 p.2.2 rowIndex) ++
          acrossSlotsLoop (List.replicate m row) (rowIndex + 1)
            (base + (runs row).length) := rfl
    rw [hstep, h, ih (rowIndex + 1)]
    rfl

/-- The down loop over columns that each carry a single full run. -/
theorem downSlotsLoop_single (g : Grid) (R : Nat) :
    ∀ (n c0 base : Nat),
      (∀ c, c0 ≤ c → c < c0 + n → runs (g.column c) = [(0, R)]) →
      downSlotsLoop g (List.range' c0 n) base =
        (List.range n).map fun k => Slot.down (base + k) 0 R (c0 + k) := by
  intro n
  induction n with
  | zero => intro c0 base h; rfl
  | succ m ih =>
    intro c0 base h
    rw [List.range'_succ]
    have hstep : downSlotsLoop g (c0 :: List.range' (c0 + 1) m) base =
        ((runs (g.column c0)).enum.map fun p =>
          Slot.down (base + p.1) p.2.1 p.2.2 c0) ++
          downSlotsLoop g (List.range' (c0 + 1) m)
            (base + (runs (g.column c0)).length) := rfl
    rw [hstep, h c0 (le_refl _) (by omega)]
    simp only [List.length_cons, List.length_nil, Nat.zero_add]
    rw [ih (c0 + 1) (base + 1) (fun c hc1 hc2 => h c (by omega) (by omega))]
    rw [show ([((0 : Nat), R)] : List (Nat × Nat)).enum = [(0, (0, R))] from rfl]
    have hhead : ([((0 : Nat), ((0 : Nat), R))].map fun p : Nat × (Nat × Nat) =>
        Slot.down (base + p.1) p.2.1 p.2.2 c0) = [Slot.down base 0 R c0] := by
      simp [Slot.down]
    rw [hhead, List.range_succ_eq_map, List.map_cons, List.map_map,
      List.singleton_append]
    refine congrArg₂ List.cons rfl ?_
    apply List.map_congr_left
    intro k _
    simp only [Function.comp_def, Nat.succ_eq_add_one]
    have e1 : base + 1 + k = base + (k + 1) := by omega
    have e2 : c0 + 1 + k = c0 + (k + 1) := by omega
    rw [e1, e2]

/-- The down loop over columns with no runs. -/
theorem downSlotsLoop_empty (g : Grid) :
    ∀ (cs : List Nat) (base : Nat), (∀ c ∈ cs, runs (g.column c) = []) →
      downSlotsLoop g cs base = [] := by
  intro cs
  induction cs with
  | nil => intro base h; rfl
  | cons c rest ih =>
    intro base h
    have hstep : downSlotsLoop g (c :: rest) base =
        ((runs (g.column c)).enum.map fun p =>
          Slot.down (base + p.1) p.2.1 p.2.2 c) ++
          downSlotsLoop g rest (base + (runs (g.column c)).length) := rfl
    rw [hstep, h c (List.mem_cons_self c rest),
      ih _ (fun c2 hc2 => h c2 (List.mem_cons_of_mem c hc2))]
    rfl

/-- The columns of a replicated grid are replicated. -/
theorem column_replicate_grid (R C x c : Nat) :
    (Grid.mk (List.replicate R (List.replicate C x))).column c =
      List.replicate R ((List.replicate C x).getD c 0) := by
  unfold Grid.column
  exact List.map_replicate

/-- Byte length of a repeated one-byte character. -/
theorem byteLen_replicate (C x : Nat) (h : utf8Len x = 1) :
    byteLen (List.replicate C x) = C := by
  unfold byteLen
  rw [List.map_replicate, h, List.sum_replicate, smul_eq_mul, Nat.mul_one]

/-- Column count of a non-empty replicated grid of one-byte
characters. -/
theorem column_count_replicate (m C x : Nat) (h : utf8Len x = 1) :
    (Grid.mk (List.replicate (m + 1) (List.replicate C x))).column_count = C := by
  rw [List.replicate_succ]
  exact byteLen_replicate C x h

/-- Claim C5: `slots()` emits the across slots first, row by row, then
the down slots, column by column; indices are assigned densely in exactly
this emission order; the runs underlying the slots are precisely the
maximal runs of at least 2 non-block cells (so a single-cell run yields
no slot); an all-`'.'` `R×C` grid has exactly `R` across slots of length
`C` (when `C ≥ 2`) followed by `C` down slots of length `R` (when
`R ≥ 2`); and an all-`'#'` grid has no slots. -/
theorem c5_slot_enumeration :
    (∀ g : Grid, g.slots = g.across_slots ++ g.down_slots g.across_slots.length) ∧
    (∀ g : Grid, g.slots.map Slot.index = List.range g.slots.length) ∧
    (∀ g : Grid, g.across_slots.map slotData =
      (g.rows.enumFrom 0).flatMap fun q =>
        (runs q.2).map fun p => (p.1, p.2, q.1, false)) ∧
    (∀ (g : Grid) (b : Nat), (g.down_slots b).map slotData =
      (List.range g.column_count).flatMap fun c =>
        (runs (g.column c)).map fun p => (p.1, p.2, c, true)) ∧
    (∀ (line : List Nat) (p : Nat × Nat), p ∈ runs line ↔ IsMaxRun line p.1 p.2) ∧
    (∀ (g : Grid) (s e r : Nat),
      ((s, e, r, false) ∈ g.across_slots.map slotData ↔
        r < g.row_count ∧ IsMaxRun (g.rows.getD r []) s e)) ∧
    (∀ (g : Grid) (b s e c : Nat),
      ((s, e, c, true) ∈ (g.down_slots b).map slotData ↔
        c < g.column_count ∧ IsMaxRun (g.column c) s e)) ∧
    (∀ R C : Nat,
      (Grid.mk (List.replicate R (List.replicate C EMPTY))).slots =
        (if 2 ≤ C then (List.range R).map fun r => Slot.across r 0 C r else []) ++
        (if 2 ≤ R then
          (List.range C).map fun k =>
            Slot.down ((if 2 ≤ C then R else 0) + k) 0 R k
          else [])) ∧
    (∀ R C : Nat,
      (Grid.mk (List.replicate R (List.replicate C BLOCK))).slots = []) := by
  refine ⟨fun g => rfl, ?_, ?_, ?_, runs_mem, ?_, ?_, ?_, ?_⟩
  · intro g
    unfold Grid.slots Grid.across_slots Grid.down_slots
    rw [List.map_append, acrossSlotsLoop_map_index, downSlotsLoop_map_index]
    rw [List.length_append]
    rw [List.range_eq_range' ((acrossSlotsLoop g.rows 0 0).length +
      (downSlotsLoop g (List.range g.column_count)
        (acrossSlotsLoop g.rows 0 0).length).length)]
    have happ := List.range'_append 0 (acrossSlotsLoop g.rows 0 0).length
      (downSlotsLoop g (List.range g.column_count)
        (acrossSlotsLoop g.rows 0 0).length).length 1
    simp only [Nat.one_mul, Nat.zero_add] at happ
    rw [Nat.add_comm (acrossSlotsLoop g.rows 0 0).length
      (downSlotsLoop g (List.range g.column_count)
        (acrossSlotsLoop g.rows 0 0).length).length]
    exact happ
  · intro g
    unfold Grid.across_slots
    exact acrossSlotsLoop_map_data g.rows 0 0
  · intro g b
    unfold Grid.down_slots
    exact downSlotsLoop_map_data g (List.range g.column_count) b
  · intro g s e r
    unfold Grid.across_slots
    rw [acrossSlotsLoop_map_data, enumFrom_runs_mem]
    constructor
    · rintro ⟨k, hk, hr, hmem⟩
      have hrk : r = k := by omega
      subst hrk
      exact ⟨hk, (runs_mem _ _).mp hmem⟩
    · rintro ⟨hr, hmax⟩
      exact ⟨r, hr, by omega, (runs_mem _ _).mpr hmax⟩
  · intro g b s e c
    unfold Grid.down_slots
    rw [downSlotsLoop_map_data, range_runs_mem]
    constructor
    · rintro ⟨h1, h2⟩
      exact ⟨h1, (runs_mem _ _).mp h2⟩
    · rintro ⟨h1, h2⟩
      exact ⟨h1, (runs_mem _ _).mpr h2⟩
  · intro R C
    cases R with
    | zero =>
      rw [List.replicate_zero]
      rw [show (Grid.mk ([] : List (List Nat))).slots = [] from rfl]
      simp
    | succ m =>
      have hrow_ne : ∀ ch ∈ List.replicate C EMPTY, ch ≠ BLOCK := by
        intro ch hch
        rw [List.eq_of_mem_replicate hch]
        decide
      have hcc : (Grid.mk (List.replicate (m + 1)
          (List.replicate C EMPTY))).column_count = C :=
        column_count_replicate m C EMPTY rfl
      have hslots : (Grid.mk (List.replicate (m + 1)
            (List.replicate C EMPTY))).slots =
          acrossSlotsLoop (List.replicate (m + 1) (List.replicate C EMPTY)) 0 0 ++
            downSlotsLoop (Grid.mk (List.replicate (m + 1) (List.replicate C EMPTY)))
              (List.range (Grid.mk (List.replicate (m + 1)
                (List.replicate C EMPTY))).column_count)
              (acrossSlotsLoop (List.replicate (m + 1)
                (List.replicate C EMPTY)) 0 0).length := rfl
      rw [hslots, hcc]
      by_cases hC : 2 ≤ C
      · have hruns : runs (List.replicate C EMPTY) = [(0, C)] := by
          rw [runs_nonblock _ hrow_ne, List.length_replicate,
            if_pos (show MIN_LEN ≤ C from hC)]
        have hacross : acrossSlotsLoop (List.replicate (m + 1)
            (List.replicate C EMPTY)) 0 0 =
            (List.range (m + 1)).map fun k => Slot.across k 0 C k := by
          rw [acrossSlotsLoop_single hruns]
          simp only [Nat.zero_add]
        rw [hacross, if_pos hC, if_pos hC]
        have hlen : ((List.range (m + 1)).map fun k =>
            Slot.across k 0 C k).length = m + 1 := by simp
        rw [hlen]
        congr 1
        by_cases hR : 2 ≤ m + 1
        · have hcruns : ∀ c, 0 ≤ c → c < 0 + C →
              runs ((Grid.mk (List.replicate (m + 1)
                (List.replicate C EMPTY))).column c) = [(0, m + 1)] := by
            intro c hc1 hc2
            rw [column_replicate_grid, getD_replicate, if_pos (by omega)]
            rw [runs_nonblock _ (fun ch hch => by
                rw [List.eq_of_mem_replicate hch]; decide),
              List.length_replicate, if_pos (show MIN_LEN ≤ m + 1 from hR)]
          rw [List.range_eq_range', downSlotsLoop_single _ (m + 1) C 0 _ hcruns,
            if_pos hR]
          simp only [Nat.zero_add]
          rw [List.range_eq_range' C]
        · have hm : m = 0 := by omega
          subst hm
          have hcruns0 : ∀ c ∈ List.range C,
              runs ((Grid.mk (List.replicate 1 (List.replicate C EMPTY))).column c) =
                [] := by
            intro c _
            rw [column_replicate_grid]
            rw [runs_nonblock _ (fun ch hch => by
                rw [List.eq_of_mem_replicate hch, getD_replicate]
                by_cases h : c < C
                · rw [if_pos h]; decide
                · rw [if_neg h]; decide),
              List.length_replicate, if_neg (by decide)]
          rw [downSlotsLoop_empty _ _ _ hcruns0, if_neg hR]
      · have hruns0 : runs (List.replicate C EMPTY) = [] := by
          rw [runs_nonblock _ hrow_ne, List.length_replicate,
            if_neg (show ¬MIN_LEN ≤ C from hC)]
        have hacross0 : acrossSlotsLoop (List.replicate (m + 1)
            (List.replicate C EMPTY)) 0 0 = [] :=
          acrossSlotsLoop_empty hruns0 (m + 1) 0 0
        rw [hacross0, if_neg hC]
        simp only [List.length_nil, List.nil_append]
        by_cases hR : 2 ≤ m + 1
        · have hcruns : ∀ c, 0 ≤ c → c < 0 + C →
              runs ((Grid.mk (List.replicate (m + 1)
                (List.replicate C EMPTY))).column c) = [(0, m + 1)] := by
            intro c hc1 hc2
            rw [column_replicate_grid, getD_replicate, if_pos (by omega)]
            rw [runs_nonblock _ (fun ch hch => by
                rw [List.eq_of_mem_replicate hch]; decide),
              List.length_replicate, if_pos (show MIN_LEN ≤ m + 1 from hR)]
          rw [List.range_eq_range', downSlotsLoop_single _ (m + 1) C 0 _ hcruns,
            if_pos hR, if_neg hC]
          simp only [Nat.zero_add]
          rw [List.range_eq_range' C]
        · have hm : m = 0 := by omega
          subst hm
          have hcruns0 : ∀ c ∈ List.range C,
              runs ((Grid.mk (List.replicate 1 (List.replicate C EMPTY))).column c) =
                [] := by
            intro c _
            rw [column_replicate_grid]
            rw [runs_nonblock _ (fun ch hch => by
                rw [List.eq_of_mem_replicate hch, getD_replicate]
                by_cases h : c < C
                · rw [if_pos h]; decide
                · rw [if_neg h]; decide),
              List.length_replicate, if_neg (by decide)]
          rw [downSlotsLoop_empty _ _ _ hcruns0, if_neg hR]
  · intro R C
    cases R with
    | zero =>
      rw [List.replicate_zero]
      rfl
    | succ m =>
      have hcc : (Grid.mk (List.replicate (m + 1)
          (List.replicate C BLOCK))).column_count = C :=
        column_count_replicate m C BLOCK rfl
      have hslots : (Grid.mk (List.replicate (m + 1)
            (List.replicate C BLOCK))).slots =
          acrossSlotsLoop (List.replicate (m + 1) (List.replicate C BLOCK)) 0 0 ++
            downSlotsLoop (Grid.mk (List.replicate (m + 1) (List.replicate C BLOCK)))
              (List.range (Grid.mk (List.replicate (m + 1)
                (List.replicate C BLOCK))).column_count)
              (acrossSlotsLoop (List.replicate (m + 1)
                (List.replicate C BLOCK)) 0 0).length := rfl
      rw [hslots, hcc]
      have hacross0 : acrossSlotsLoop (List.replicate (m + 1)
          (List.replicate C BLOCK)) 0 0 = [] :=
        acrossSlotsLoop_empty (runs_allblock C) (m + 1) 0 0
      have hcruns0 : ∀ c ∈ List.range C,
          runs ((Grid.mk (List.replicate (m + 1)
            (List.replicate C BLOCK))).column c) = [] := by
        intro c hc
        rw [column_replicate_grid, getD_replicate, if_pos (List.mem_range.mp hc)]
        exact runs_allblock (m + 1)
      rw [hacross0, downSlotsLoop_empty _ _ _ hcruns0]
      rfl

/-- Witness for claim C5: the line `"..#"` has the single maximal run
`[0, 2)`, recovered through the characterization; the 2×3 blank grid has
five slots with indices `0..4` assigned densely. -/
theorem c5_slot_enumeration_witness :
    (0, 2) ∈ runs [46, 46, 35] ∧
    (Grid.mk [[46, 46, 46], [46, 46, 46]]).slots.map Slot.index = List.range 5 := by
  constructor
  · exact (c5_slot_enumeration.2.2.2.2.1 [46, 46, 35] (0, 2)).mpr (by decide)
  · exact (c5_slot_enumeration.2.1 (Grid.mk [[46, 46, 46], [46, 46, 46]])).trans
      (by decide)

end Croissant
